import Mathlib

/-!
# Damerau–Levenshtein baseline (`DL_Baseline.cpp`)

A shallow embedding of `damerau_levenshtein_true` and a verification of its
contract.  The table `d` is the flat `std::vector<int>` of the source, `int`
is modelled by `Int` (no wrap-around), a `std::string` is a list of bytes.
-/

namespace DLBaseline

/-! ## The program -/

/-- One `char` of a `std::string`, seen through `static_cast<unsigned char>`. -/
abbrev Byte := Fin 256

/-- Read through the lambda `at(i, j)`: the flat cell `d[i * (m + 2) + j]`. -/
def atGet (m : Nat) (d : List Int) (i j : Nat) : Int :=
  d.getD (i * (m + 2) + j) 0

/-- Write through the lambda `at(i, j) = v`. -/
def atSet (m : Nat) (d : List Int) (i j : Nat) (v : Int) : List Int :=
  d.set (i * (m + 2) + j) v

/-- Body of `for (int i = 0; i <= n; ++i)`: `at(i+1,0) = INF; at(i+1,1) = i`. -/
def initRowStep (m : Nat) (INF : Int) (d : List Int) (i : Nat) : List Int :=
  atSet m (atSet m d (i + 1) 0 INF) (i + 1) 1 (i : Int)

/-- Body of `for (int j = 0; j <= m; ++j)`: `at(0,j+1) = INF; at(1,j+1) = j`. -/
def initColStep (m : Nat) (INF : Int) (d : List Int) (j : Nat) : List Int :=
  atSet m (atSet m d 0 (j + 1) INF) 1 (j + 1) (j : Int)

/-- The table after the two initialisation loops (source lines 19–30). -/
def initTable (n m : Nat) : List Int :=
  let INF : Int := (n : Int) + (m : Int)
  let d0 : List Int := List.replicate ((n + 2) * (m + 2)) 0
  let d1 := atSet m d0 0 0 INF
  let d2 := (List.range (n + 1)).foldl (initRowStep m INF) d1
  (List.range (m + 1)).foldl (initColStep m INF) d2

/-- Body of the inner loop `for (int j = 1; j <= m; ++j)` at row `i`
(source lines 39–61); the state is the table and the counter `db`. -/
def innerStep (a b : List Byte) (m i : Nat) (da : List Nat)
    (st : List Int × Nat) (j : Nat) : List Int × Nat :=
  let d := st.1
  let db := st.2
  let bj : Byte := b.getD (j - 1) 0
  let ai : Byte := a.getD (i - 1) 0
  let i1 : Nat := da.getD bj.val 0
  let j1 : Nat := db
  let cost : Int := if ai = bj then 0 else 1
  let db1 : Nat := if ai = bj then j else db
  let del : Int := atGet m d i (j + 1) + 1
  let ins : Int := atGet m d (i + 1) j + 1
  let sub : Int := atGet m d i j + cost
  let best : Int := min (min del ins) sub
  let transp : Int :=
    atGet m d i1 j1 + ((i : Int) - (i1 : Int) - 1) + 1 + ((j : Int) - (j1 : Int) - 1)
  let best1 : Int := min best transp
  (atSet m d (i + 1) (j + 1) best1, db1)

/-- Body of the outer loop `for (int i = 1; i <= n; ++i)` (source lines 35–65);
the state is the table and the last-occurrence array `da`. -/
def outerStep (a b : List Byte) (m : Nat)
    (st : List Int × List Nat) (i : Nat) : List Int × List Nat :=
  let d := st.1
  let da := st.2
  let r := (List.range' 1 m).foldl (innerStep a b m i da) (d, 0)
  (r.1, da.set (a.getD (i - 1) 0).val i)

/-- The table `d` and the array `da` when the outer loop has finished. -/
def finalState (a b : List Byte) : List Int × List Nat :=
  let n := a.length
  let m := b.length
  (List.range' 1 n).foldl (outerStep a b m) (initTable n m, List.replicate 256 0)

/-- The table `d` at the `return` statement. -/
def finalTable (a b : List Byte) : List Int :=
  (finalState a b).1

/-- The function `damerau_levenshtein_true`: `return at(n + 1, m + 1)`. -/
def damerau_levenshtein_true (a b : List Byte) : Int :=
  atGet b.length (finalTable a b) (a.length + 1) (b.length + 1)

/-! ## Edit sequences and alignments -/

section Spec

variable {α : Type} [DecidableEq α]

/-- One unit-cost edit of a sequence: an insertion, a deletion, a substitution
or a swap of two adjacent symbols, at any position (`cons` moves the position
one symbol to the right). -/
inductive Step : List α → List α → Prop
  | ins (z : α) (s : List α) : Step s (z :: s)
  | del (z : α) (s : List α) : Step (z :: s) s
  | sub (x z : α) (s : List α) : Step (x :: s) (z :: s)
  | swap (x y : α) (s : List α) : Step (x :: y :: s) (y :: x :: s)
  | cons (x : α) {s t : List α} : Step s t → Step (x :: s) (x :: t)

/-- Edit sequences: `EditSeq s t k` says that `k` edits, applied one after
another, each to the result of the one before, turn `s` into `t`. -/
inductive EditSeq : List α → List α → Nat → Prop
  | refl (s : List α) : EditSeq s s 0
  | step {s t u : List α} {k : Nat} : Step s t → EditSeq t u k → EditSeq s u (k + 1)

/-- Cost of aligning `x` with `y`: 0 on a match, 1 on a substitution. -/
def subCost (x y : α) : Nat := if x = y then 0 else 1

/-- Alignments: `Al s t k` is an alignment of `s` with `t` of cost `k`, read
from the left.  Its blocks delete a symbol, insert a symbol, align two symbols
(free when they are equal), or turn `x u y` into `y v x` (delete `u`, swap,
insert `v`). -/
inductive Al : List α → List α → Nat → Prop
  | nil : Al [] [] 0
  | del (x : α) {s t : List α} {k : Nat} : Al s t k → Al (x :: s) t (k + 1)
  | ins (y : α) {s t : List α} {k : Nat} : Al s t k → Al s (y :: t) (k + 1)
  | sub (x y : α) {s t : List α} {k : Nat} :
      Al s t k → Al (x :: s) (y :: t) (k + subCost x y)
  | trans (x y : α) (u v : List α) {s t : List α} {k : Nat} :
      Al s t k → Al (x :: (u ++ y :: s)) (y :: (v ++ x :: t)) (k + u.length + 1 + v.length)

/-- An alignment of cost at most `k`. -/
def AlLe (s t : List α) (k : Nat) : Prop := ∃ k0, k0 ≤ k ∧ Al s t k0

/-- Alignments again: `AlR s t k` is the relation `Al`, built from the right
end, the way the table is filled. -/
inductive AlR : List α → List α → Nat → Prop
  | nil : AlR [] [] 0
  | del (x : α) {s t : List α} {k : Nat} : AlR s t k → AlR (s ++ [x]) t (k + 1)
  | ins (y : α) {s t : List α} {k : Nat} : AlR s t k → AlR s (t ++ [y]) (k + 1)
  | sub (x y : α) {s t : List α} {k : Nat} :
      AlR s t k → AlR (s ++ [x]) (t ++ [y]) (k + subCost x y)
  | trans (x y : α) (u v : List α) {s t : List α} {k : Nat} :
      AlR s t k → AlR (s ++ x :: (u ++ [y])) (t ++ y :: (v ++ [x])) (k + u.length + 1 + v.length)

/-- Optimality: `Opt s t k` says that `k` is the least cost of an alignment of
`s` with `t`. -/
def Opt (s t : List α) (k : Nat) : Prop :=
  Al s t k ∧ ∀ k1, Al s t k1 → k ≤ k1

/-- Last occurrence: `LastOcc s c p` says that `p` is the 1-based position of
the last occurrence of `c` in `s`, or `0` when `c` does not occur in `s`. -/
def LastOcc (s : List α) (c : α) (p : Nat) : Prop :=
  p ≤ s.length ∧ (0 < p → s[p - 1]? = some c) ∧ ∀ q, p ≤ q → s[q]? ≠ some c

end Spec

/-! ## The invariant of the table, and the functions the program is compared with -/

/-- Loop invariant: `TableOK a b i j d` is the state of the table `d` when the
inner loop is about to fill the cell of row `i` and column `j`.  The sentinel band holds
`INF = n + m`, and every cell `at(r + 1, c + 1)` filled so far (the two base
lines, the rows before `i`, the columns before `j` of row `i`) holds the least
alignment cost of the prefixes `a[0..r)` and `b[0..c)`. -/
structure TableOK (a b : List Byte) (i j : Nat) (d : List Int) : Prop where
  len : d.length = (a.length + 2) * (b.length + 2)
  row0 : ∀ c, c ≤ b.length + 1 → atGet b.length d 0 c = (a.length : Int) + (b.length : Int)
  col0 : ∀ r, r ≤ a.length + 1 → atGet b.length d r 0 = (a.length : Int) + (b.length : Int)
  cells : ∀ r c, r ≤ a.length → c ≤ b.length →
    (r = 0 ∨ c = 0 ∨ r < i ∨ (r = i ∧ c < j)) →
    ∃ k : Nat, atGet b.length d (r + 1) (c + 1) = (k : Int) ∧ Opt (a.take r) (b.take c) k

/-- Body of the inner loop of the optimal-string-alignment (restricted)
recurrence the specification contrasts the program with: the same table and the
same three candidates, but the transposition check only looks at the
immediately preceding row and column (`a[i-1] = b[j-2]` and `a[i-2] = b[j-1]`)
and then offers `at(i-1, j-1) + 1`. -/
def osaInnerStep (a b : List Byte) (m i : Nat) (d : List Int) (j : Nat) : List Int :=
  let bj : Byte := b.getD (j - 1) 0
  let ai : Byte := a.getD (i - 1) 0
  let cost : Int := if ai = bj then 0 else 1
  let del : Int := atGet m d i (j + 1) + 1
  let ins : Int := atGet m d (i + 1) j + 1
  let sub : Int := atGet m d i j + cost
  let best : Int := min (min del ins) sub
  let best1 : Int :=
    if 1 < i ∧ 1 < j ∧ ai = b.getD (j - 2) 0 ∧ a.getD (i - 2) 0 = bj then
      min best (atGet m d (i - 1) (j - 1) + 1)
    else best
  atSet m d (i + 1) (j + 1) best1

/-- The optimal-string-alignment distance, computed over the same table. -/
def osa_distance (a b : List Byte) : Int :=
  let n := a.length
  let m := b.length
  let d := (List.range' 1 n).foldl
    (fun d i => (List.range' 1 m).foldl (osaInnerStep a b m i) d) (initTable n m)
  atGet m d (n + 1) (m + 1)

/-- Bytes of a string literal of the source. -/
def bytes (s : String) : List Byte :=
  s.toList.map (fun c => Fin.ofNat c.toNat)

/-- The table `cases` of `quick_unit_tests`: `a`, `b` and the expected value. -/
def unitCases : List (List Byte × List Byte × Int) :=
  [ (bytes "", bytes "", 0),
    (bytes "a", bytes "", 1),
    (bytes "", bytes "abc", 3),
    (bytes "abc", bytes "abc", 0),
    (bytes "ca", bytes "ac", 1),
    (bytes "abcd", bytes "abdc", 1),
    (bytes "kitten", bytes "sitting", 3) ]

/-- The function `quick_unit_tests`: `true` when the loop over `cases` reaches
the `[OK]` line, `false` when some case takes the `[FAIL]` branch. -/
def quick_unit_tests : Bool :=
  unitCases.all (fun c => decide (damerau_levenshtein_true c.1 c.2.1 = c.2.2))

/-! ## The run, iteration by iteration -/

/-- The table `d` and the array `da` at the top of iteration `i` of the outer
loop, when the rows `1 .. i - 1` have been processed. -/
def rowState (a b : List Byte) (i : Nat) : List Int × List Nat :=
  (List.range' 1 (i - 1)).foldl (outerStep a b b.length)
    (initTable a.length b.length, List.replicate 256 0)

/-- The table `d` and the counter `db` at the top of iteration `j` of the inner
loop of row `i`, when the columns `1 .. j - 1` of that row have been processed. -/
def cellState (a b : List Byte) (i j : Nat) : List Int × Nat :=
  (List.range' 1 (j - 1)).foldl (innerStep a b b.length i (rowState a b i).2)
    ((rowState a b i).1, 0)

/-- The value `i1 = da[bj]` read at iteration `(i, j)` (source line 42). -/
def i1At (a b : List Byte) (i j : Nat) : Nat :=
  (rowState a b i).2.getD (b.getD (j - 1) 0).val 0

/-- The value `j1 = db` read at iteration `(i, j)` (source line 43). -/
def j1At (a b : List Byte) (i j : Nat) : Nat :=
  (cellState a b i j).2

/-- The value `cost` of iteration `(i, j)` (source lines 45–49). -/
def costAt (a b : List Byte) (i j : Nat) : Int :=
  if a.getD (i - 1) 0 = b.getD (j - 1) 0 then 0 else 1

/-- The candidate `del = at(i, j + 1) + 1` of iteration `(i, j)`. -/
def delAt (a b : List Byte) (i j : Nat) : Int :=
  atGet b.length (cellState a b i j).1 i (j + 1) + 1

/-- The candidate `ins = at(i + 1, j) + 1` of iteration `(i, j)`. -/
def insAt (a b : List Byte) (i j : Nat) : Int :=
  atGet b.length (cellState a b i j).1 (i + 1) j + 1

/-- The candidate `sub = at(i, j) + cost` of iteration `(i, j)`. -/
def subAt (a b : List Byte) (i j : Nat) : Int :=
  atGet b.length (cellState a b i j).1 i j + costAt a b i j

/-- The candidate `transp = at(i1, j1) + (i - i1 - 1) + 1 + (j - j1 - 1)` of
iteration `(i, j)`. -/
def transpAt (a b : List Byte) (i j : Nat) : Int :=
  atGet b.length (cellState a b i j).1 (i1At a b i j) (j1At a b i j)
    + ((i : Int) - (i1At a b i j : Int) - 1) + 1 + ((j : Int) - (j1At a b i j : Int) - 1)

/-- Greatest position before a bound: `GreatestBefore s c bound p` says that
`p` is the greatest `k` with `1 ≤ k < bound` and `s[k-1] = c`, or `0` when
there is no such `k`. -/
def GreatestBefore (s : List Byte) (c : Byte) (bound p : Nat) : Prop :=
  (p = 0 ∧ ∀ k, 1 ≤ k → k < bound → s.getD (k - 1) 0 ≠ c) ∨
  (1 ≤ p ∧ p < bound ∧ s.getD (p - 1) 0 = c ∧
    ∀ k, 1 ≤ k → k < bound → s.getD (k - 1) 0 = c → k ≤ p)

/-! ## The program in 32-bit `int` arithmetic -/

/-- Two's-complement wrap of an integer into the range of a 32-bit `int`. -/
def wrap32 (x : Int) : Int :=
  (x + 2147483648) % 4294967296 - 2147483648

/-- Addition of two `int` values. -/
def add32 (x y : Int) : Int := wrap32 (x + y)

/-- Subtraction of two `int` values. -/
def sub32 (x y : Int) : Int := wrap32 (x - y)

/-- Multiplication of two `int` values. -/
def mul32 (x y : Int) : Int := wrap32 (x * y)

/-- The flat index `i * (m + 2) + j` of `at(i, j)`, computed in `int`. -/
def idx32 (m i j : Int) : Nat :=
  (add32 (mul32 i (add32 m 2)) j).toNat

/-- Read through `at(i, j)` with the index computed in `int`. -/
def atGet32 (m : Int) (d : List Int) (i j : Int) : Int :=
  d.getD (idx32 m i j) 0

/-- Write through `at(i, j) = v` with the index computed in `int`. -/
def atSet32 (m : Int) (d : List Int) (i j : Int) (v : Int) : List Int :=
  d.set (idx32 m i j) v

/-- Body of the first initialisation loop, in `int`. -/
def initRowStep32 (m INF : Int) (d : List Int) (i : Nat) : List Int :=
  atSet32 m (atSet32 m d (add32 i 1) 0 INF) (add32 i 1) 1 (i : Int)

/-- Body of the second initialisation loop, in `int`. -/
def initColStep32 (m INF : Int) (d : List Int) (j : Nat) : List Int :=
  atSet32 m (atSet32 m d 0 (add32 j 1) INF) 1 (add32 j 1) (j : Int)

/-- The table after the initialisation loops, in `int`; `n` and `m` are the
values of `static_cast<int>` on the two sizes. -/
def initTable32 (n m : Int) : List Int :=
  let INF : Int := add32 n m
  let d0 : List Int := List.replicate (mul32 (add32 n 2) (add32 m 2)).toNat 0
  let d1 := atSet32 m d0 0 0 INF
  let d2 := (List.range (n + 1).toNat).foldl (initRowStep32 m INF) d1
  (List.range (m + 1).toNat).foldl (initColStep32 m INF) d2

/-- Body of the inner loop, every operation in `int`. -/
def innerStep32 (a b : List Byte) (m : Int) (i : Nat) (da : List Nat)
    (st : List Int × Nat) (j : Nat) : List Int × Nat :=
  let d := st.1
  let db := st.2
  let bj : Byte := b.getD (sub32 j 1).toNat 0
  let ai : Byte := a.getD (sub32 i 1).toNat 0
  let i1 : Nat := da.getD bj.val 0
  let j1 : Nat := db
  let cost : Int := if ai = bj then 0 else 1
  let db1 : Nat := if ai = bj then j else db
  let del : Int := add32 (atGet32 m d i (add32 j 1)) 1
  let ins : Int := add32 (atGet32 m d (add32 i 1) j) 1
  let sub : Int := add32 (atGet32 m d i j) cost
  let best : Int := min (min del ins) sub
  let transp : Int :=
    add32 (add32 (add32 (atGet32 m d i1 j1) (sub32 (sub32 i i1) 1)) 1) (sub32 (sub32 j j1) 1)
  let best1 : Int := min best transp
  (atSet32 m d (add32 i 1) (add32 j 1) best1, db1)

/-- Body of the outer loop, every operation in `int`. -/
def outerStep32 (a b : List Byte) (m : Int)
    (st : List Int × List Nat) (i : Nat) : List Int × List Nat :=
  let d := st.1
  let da := st.2
  let r := (List.range' 1 m.toNat).foldl (innerStep32 a b m i da) (d, 0)
  (r.1, da.set (a.getD (sub32 i 1).toNat 0).val i)

/-- The function `damerau_levenshtein_true` with `int` as a wrapping 32-bit
integer.  The loop counters run over `1 .. n` and `1 .. m`. -/
def damerau_levenshtein_true32 (a b : List Byte) : Int :=
  let n : Int := wrap32 (a.length : Int)
  let m : Int := wrap32 (b.length : Int)
  let st := (List.range' 1 n.toNat).foldl (outerStep32 a b m)
    (initTable32 n m, List.replicate 256 0)
  atGet32 m st.1 (add32 n 1) (add32 m 1)

/-! ## The program as compiled: 32-bit `int`, every access checked -/

/-- The flat index `i * (m + 2) + j` of `at(i, j)` as the `int` the code
computes, before it is used as a vector index. -/
def flat32 (m i j : Int) : Int :=
  add32 (mul32 i (add32 m 2)) j

/-- Allocation `std::vector<int> d(size, 0)` with `size` an `int`: a negative
`size` becomes a `size_t` above the vector's maximal size and the constructor
throws; `none` stands for that. -/
def allocC32 (size : Int) : Option (List Int) :=
  if 0 ≤ size then some (List.replicate size.toNat 0) else none

/-- Checked read through `at(i, j)`: it fails when the `int` index is negative
or not below the size of the vector. -/
def atGetC32 (m : Int) (d : List Int) (i j : Int) : Option Int :=
  if 0 ≤ flat32 m i j then d[(flat32 m i j).toNat]? else none

/-- Checked write through `at(i, j) = v`, failing like `atGetC32`. -/
def atSetC32 (m : Int) (d : List Int) (i j : Int) (v : Int) : Option (List Int) :=
  if 0 ≤ flat32 m i j ∧ (flat32 m i j).toNat < d.length then
    some (d.set (flat32 m i j).toNat v)
  else none

/-- Checked read `s[k]` of a string with an `int` index. -/
def strGetC32 (s : List Byte) (k : Int) : Option Byte :=
  if 0 ≤ k then s[k.toNat]? else none

/-- Checked body of the first initialisation loop (source lines 23–26). -/
def initRowStepC32 (m INF : Int) (d : List Int) (i : Nat) : Option (List Int) := do
  let d1 ← atSetC32 m d (add32 i 1) 0 INF
  atSetC32 m d1 (add32 i 1) 1 (i : Int)

/-- Checked body of the second initialisation loop (source lines 27–30). -/
def initColStepC32 (m INF : Int) (d : List Int) (j : Nat) : Option (List Int) := do
  let d1 ← atSetC32 m d 0 (add32 j 1) INF
  atSetC32 m d1 1 (add32 j 1) (j : Int)

/-- Checked initialisation (source lines 16–30); `n` and `m` are the values of
`static_cast<int>` on the two sizes.  The loops `for (int i = 0; i <= n; ++i)`
run over `0 .. n`, and not at all when `n` is negative. -/
def initTableC32 (n m : Int) : Option (List Int) := do
  let INF : Int := add32 n m
  let d0 ← allocC32 (mul32 (add32 n 2) (add32 m 2))
  let d1 ← atSetC32 m d0 0 0 INF
  let d2 ← (List.range' 0 (n + 1).toNat).foldlM (initRowStepC32 m INF) d1
  (List.range' 0 (m + 1).toNat).foldlM (initColStepC32 m INF) d2

/-- Checked body of the inner loop (source lines 38–62): the reads of
`b[j - 1]`, `a[i - 1]`, `da[bj]` and of the four cells, and the write of the
cell, fail when out of range; the arithmetic is that of `int`. -/
def innerStepC32 (a b : List Byte) (m : Int) (i : Nat) (da : List Nat)
    (st : List Int × Nat) (j : Nat) : Option (List Int × Nat) := do
  let d := st.1
  let db := st.2
  let bj ← strGetC32 b (sub32 j 1)
  let ai ← strGetC32 a (sub32 i 1)
  let i1 ← da[bj.val]?
  let j1 : Nat := db
  let cost : Int := if ai = bj then 0 else 1
  let db1 : Nat := if ai = bj then j else db
  let vd ← atGetC32 m d i (add32 j 1)
  let vi ← atGetC32 m d (add32 i 1) j
  let vs ← atGetC32 m d i j
  let best : Int := min (min (add32 vd 1) (add32 vi 1)) (add32 vs cost)
  let vt ← atGetC32 m d i1 j1
  let transp : Int :=
    add32 (add32 (add32 vt (sub32 (sub32 i i1) 1)) 1) (sub32 (sub32 j j1) 1)
  let d1 ← atSetC32 m d (add32 i 1) (add32 j 1) (min best transp)
  pure (d1, db1)

/-- Checked body of the outer loop (source lines 35–65); the write
`da[a[i - 1]] = i` fails when the index leaves the array. -/
def outerStepC32 (a b : List Byte) (m : Int)
    (st : List Int × List Nat) (i : Nat) : Option (List Int × List Nat) := do
  let r ← (List.range' 1 m.toNat).foldlM (innerStepC32 a b m i st.2) (st.1, 0)
  let ai ← strGetC32 a (sub32 i 1)
  if ai.val < st.2.length then pure (r.1, st.2.set ai.val i) else none

/-- The table `d` and the array `da` when the checked program reaches its
`return` statement; `none` when it does not reach it. -/
def finalStateC32 (a b : List Byte) : Option (List Int × List Nat) := do
  let n : Int := wrap32 (a.length : Int)
  let m : Int := wrap32 (b.length : Int)
  let d0 ← initTableC32 n m
  (List.range' 1 n.toNat).foldlM (outerStepC32 a b m) (d0, List.replicate 256 0)

/-- The value the cell `at(r, c)` holds when the checked program reaches its
`return` statement. -/
def cellAtReturnC32 (a b : List Byte) (r c : Int) : Option Int := do
  let st ← finalStateC32 a b
  atGetC32 (wrap32 (b.length : Int)) st.1 r c

/-- The function `damerau_levenshtein_true` as compiled: `n` and `m` are the
sizes narrowed to a wrapping 32-bit `int`, the size of the vector and every
index into it are computed in `int`, and every access is checked.  The result
`none` stands for a failed allocation or an out-of-range access. -/
def damerau_levenshtein_checked32 (a b : List Byte) : Option Int := do
  let n : Int := wrap32 (a.length : Int)
  let m : Int := wrap32 (b.length : Int)
  let d0 ← initTableC32 n m
  let st ← (List.range' 1 n.toNat).foldlM (outerStepC32 a b m) (d0, List.replicate 256 0)
  atGetC32 m st.1 (add32 n 1) (add32 m 1)

/-- The row and column of every table access of the initialisation (source
lines 22–30), in program order. -/
def initAccesses (n m : Nat) : List (Nat × Nat) :=
  (0, 0) :: ((List.range (n + 1)).flatMap (fun i => [(i + 1, 0), (i + 1, 1)]) ++
    (List.range (m + 1)).flatMap (fun j => [(0, j + 1), (1, j + 1)]))

/-- The row and column of the five table accesses of iteration `(i, j)` (source
lines 51–61), in program order: `at(i, j + 1)`, `at(i + 1, j)`, `at(i, j)`,
`at(i1, j1)` and `at(i + 1, j + 1)`. -/
def iterAccesses (a b : List Byte) (i j : Nat) : List (Nat × Nat) :=
  [(i, j + 1), (i + 1, j), (i, j), (i1At a b i j, j1At a b i j), (i + 1, j + 1)]

/-! ## Properties of edit sequences -/

section Edits

variable {α : Type}

/-- Cutting a sequence at a position that holds `c`. -/
theorem split_at_getElem? (s : List α) (p : Nat) (c : α) (h : s[p]? = some c) :
    s = s.take p ++ c :: s.drop (p + 1) := by
  induction s generalizing p with
  | nil => simp at h
  | cons x s ih =>
      cases p with
      | zero =>
          simp at h
          simp [h]
      | succ p =>
          simp at h
          simp only [List.take_succ_cons, List.drop_succ_cons, List.cons_append]
          rw [← ih p h]

theorem getElem?_append_cons (s0 u : List α) (c : α) :
    (s0 ++ c :: u)[s0.length]? = some c := by
  rw [List.getElem?_append_right (le_refl _)]
  simp

/-- Where a step into `u ++ w` happened: inside `u` (or at its right end), inside
`w`, or it swapped the last symbol of `u` with the first of `w`. -/
theorem Step.append_inv (u : List α) : ∀ {s w : List α}, Step s (u ++ w) →
    (∃ u1, s = u1 ++ w ∧ u1.length ≤ u.length + 1) ∨
    (∃ w1, s = u ++ w1 ∧ Step w1 w) ∨
    (∃ u0 p q w0, u = u0 ++ [p] ∧ w = q :: w0 ∧ s = u0 ++ q :: p :: w0) := by
  induction u with
  | nil =>
      intro s w h
      exact Or.inr (Or.inl ⟨s, rfl, h⟩)
  | cons c u ih =>
      intro s w h
      generalize hr : u ++ w = r at h
      rw [List.cons_append, hr] at h
      cases h with
      | ins z s =>
          subst hr
          exact Or.inl ⟨u, rfl, by simp only [List.length_cons]; omega⟩
      | del z s =>
          subst hr
          exact Or.inl ⟨z :: c :: u, rfl, by simp only [List.length_cons]; omega⟩
      | sub x z s =>
          subst hr
          exact Or.inl ⟨x :: u, rfl, by simp⟩
      | swap x y s1 =>
          cases u with
          | nil =>
              simp at hr
              subst hr
              exact Or.inr (Or.inr ⟨[], c, x, s1, rfl, rfl, rfl⟩)
          | cons x1 u2 =>
              simp at hr
              obtain ⟨e1, e2⟩ := hr
              subst e1; subst e2
              exact Or.inl ⟨x1 :: c :: u2, rfl, by simp⟩
      | @cons x s2 t hs =>
          subst hr
          rcases ih hs with ⟨u1, e, hl⟩ | ⟨w1, e, hw⟩ | ⟨u0, p, q, w0, e1, e2, e3⟩
          · subst e
            exact Or.inl ⟨c :: u1, rfl, by simp; omega⟩
          · subst e
            exact Or.inr (Or.inl ⟨w1, rfl, hw⟩)
          · subst e1; subst e2; subst e3
            exact Or.inr (Or.inr ⟨c :: u0, p, q, w0, rfl, rfl, rfl⟩)

theorem EditSeq.castSeq {s t : List α} {k k1 : Nat} (h : EditSeq s t k) (hk : k = k1) :
    EditSeq s t k1 :=
  hk ▸ h

theorem EditSeq.chain {s t u : List α} {k k1 : Nat} (h : EditSeq s t k)
    (h1 : EditSeq t u k1) : EditSeq s u (k + k1) := by
  induction h with
  | refl s => simpa using h1
  | step hs _ ih => exact (EditSeq.step hs (ih h1)).castSeq (by omega)

theorem EditSeq.cons (x : α) {s t : List α} {k : Nat} (h : EditSeq s t k) :
    EditSeq (x :: s) (x :: t) k := by
  induction h with
  | refl s => exact EditSeq.refl _
  | step hs _ ih => exact EditSeq.step (Step.cons x hs) ih

theorem EditSeq.prependSeq (p : List α) {s t : List α} {k : Nat} (h : EditSeq s t k) :
    EditSeq (p ++ s) (p ++ t) k := by
  induction p with
  | nil => exact h
  | cons x p ih => exact EditSeq.cons x ih

theorem EditSeq.delsSeq (u s : List α) : EditSeq (u ++ s) s u.length := by
  induction u with
  | nil => exact EditSeq.refl _
  | cons x u ih => exact EditSeq.step (Step.del x (u ++ s)) ih

theorem EditSeq.inssSeq (v s : List α) : EditSeq s (v ++ s) v.length := by
  induction v with
  | nil => exact EditSeq.refl _
  | cons x v ih => exact (ih.chain (EditSeq.step (Step.ins x (v ++ s)) (EditSeq.refl _)))

theorem Step.prepend {α : Type} (p : List α) {u v : List α} (h : Step u v) :
    Step (p ++ u) (p ++ v) := by
  induction p with
  | nil => exact h
  | cons c p ih => exact Step.cons c ih

/-- A step is an edit at some position: `p` is the untouched part before it,
`q` the untouched part after it. -/
theorem step_iff {α : Type} (s t : List α) :
    Step s t ↔ ∃ p q : List α,
      (∃ z, s = p ++ q ∧ t = p ++ z :: q) ∨
      (∃ z, s = p ++ z :: q ∧ t = p ++ q) ∨
      (∃ x z, s = p ++ x :: q ∧ t = p ++ z :: q) ∨
      (∃ x y, s = p ++ x :: y :: q ∧ t = p ++ y :: x :: q) := by
  constructor
  · intro h
    induction h with
    | ins z s => exact ⟨[], s, Or.inl ⟨z, rfl, rfl⟩⟩
    | del z s => exact ⟨[], s, Or.inr (Or.inl ⟨z, rfl, rfl⟩)⟩
    | sub x z s => exact ⟨[], s, Or.inr (Or.inr (Or.inl ⟨x, z, rfl, rfl⟩))⟩
    | swap x y s => exact ⟨[], s, Or.inr (Or.inr (Or.inr ⟨x, y, rfl, rfl⟩))⟩
    | cons c _ ih =>
        obtain ⟨p, q, h⟩ := ih
        refine ⟨c :: p, q, ?_⟩
        rcases h with ⟨z, e1, e2⟩ | ⟨z, e1, e2⟩ | ⟨x, z, e1, e2⟩ | ⟨x, y, e1, e2⟩
        · exact Or.inl ⟨z, by rw [e1]; rfl, by rw [e2]; rfl⟩
        · exact Or.inr (Or.inl ⟨z, by rw [e1]; rfl, by rw [e2]; rfl⟩)
        · exact Or.inr (Or.inr (Or.inl ⟨x, z, by rw [e1]; rfl, by rw [e2]; rfl⟩))
        · exact Or.inr (Or.inr (Or.inr ⟨x, y, by rw [e1]; rfl, by rw [e2]; rfl⟩))
  · rintro ⟨p, q, h⟩
    rcases h with ⟨z, e1, e2⟩ | ⟨z, e1, e2⟩ | ⟨x, z, e1, e2⟩ | ⟨x, y, e1, e2⟩
    · rw [e1, e2]; exact Step.prepend p (Step.ins z q)
    · rw [e1, e2]; exact Step.prepend p (Step.del z q)
    · rw [e1, e2]; exact Step.prepend p (Step.sub x z q)
    · rw [e1, e2]; exact Step.prepend p (Step.swap x y q)

end Edits

/-! ## Properties of alignments -/

section Alignments

variable {α : Type} [DecidableEq α]

theorem Al.le {s t : List α} {k k1 : Nat} (h : Al s t k) (hk : k ≤ k1) : AlLe s t k1 :=
  ⟨k, hk, h⟩

theorem AlLe.mono {s t : List α} {k k1 : Nat} (h : AlLe s t k) (hk : k ≤ k1) : AlLe s t k1 := by
  obtain ⟨k0, h0, h1⟩ := h
  exact ⟨k0, le_trans h0 hk, h1⟩

theorem Al.cast {s t : List α} {k k1 : Nat} (h : Al s t k) (hk : k = k1) : Al s t k1 :=
  hk ▸ h

theorem subCost_le (x y : α) : subCost x y ≤ 1 := by
  unfold subCost; split <;> omega

theorem subCost_self (x : α) : subCost x x = 0 := by
  simp [subCost]

theorem subCost_comm (x y : α) : subCost x y = subCost y x := by
  unfold subCost
  by_cases h : x = y
  · subst h; rfl
  · have h1 : ¬ y = x := fun e => h e.symm
    simp [h, h1]

theorem Al.match_ (x : α) {s t : List α} {k : Nat} (h : Al s t k) : Al (x :: s) (x :: t) k :=
  (Al.sub x x h).cast (by simp [subCost_self])

theorem Al.refl (s : List α) : Al s s 0 := by
  induction s with
  | nil => exact Al.nil
  | cons x s ih => exact Al.match_ x ih

theorem Al.symm {s t : List α} {k : Nat} (h : Al s t k) : Al t s k := by
  induction h with
  | nil => exact Al.nil
  | del x _ ih => exact Al.ins x ih
  | ins y _ ih => exact Al.del y ih
  | sub x y _ ih => exact (Al.sub y x ih).cast (by rw [subCost_comm])
  | trans x y u v _ ih => exact (Al.trans y x v u ih).cast (by omega)

theorem Al.dels (u : List α) {s t : List α} {k : Nat} (h : Al s t k) :
    Al (u ++ s) t (k + u.length) := by
  induction u with
  | nil => simpa using h
  | cons x u ih => exact (Al.del x ih).cast (by simp; omega)

theorem Al.inss (v : List α) {s t : List α} {k : Nat} (h : Al s t k) :
    Al s (v ++ t) (k + v.length) := by
  induction v with
  | nil => simpa using h
  | cons x u ih => exact (Al.ins x ih).cast (by simp; omega)

/-- Inserting one symbol anywhere in the source costs at most one more. -/
theorem Al.insert_src {s t : List α} {k : Nat} (h : Al s t k) :
    ∀ (p q : List α) (z : α), s = p ++ q → Al (p ++ z :: q) t (k + 1) := by
  induction h with
  | nil =>
      intro p q z e
      have e1 := List.nil_eq_append_iff.mp e
      obtain ⟨hp, hq⟩ := e1
      subst hp; subst hq
      exact Al.del z Al.nil
  | @del x s t k h ih =>
      intro p q z e
      cases p with
      | nil =>
          simp at e; subst e
          exact Al.del z (Al.del x h)
      | cons x1 p =>
          simp at e
          obtain ⟨e1, e2⟩ := e
          subst e1
          exact Al.del x (ih p q z e2)
  | @ins y s t k h ih =>
      intro p q z e
      exact Al.ins y (ih p q z e)
  | @sub x y s t k h ih =>
      intro p q z e
      cases p with
      | nil =>
          simp at e; subst e
          exact Al.del z (Al.sub x y h)
      | cons x1 p =>
          simp at e
          obtain ⟨e1, e2⟩ := e
          subst e1
          exact (Al.sub x y (ih p q z e2)).cast (by omega)
  | @trans x y u v s t k h ih =>
      intro p q z e
      cases p with
      | nil =>
          simp at e; subst e
          exact Al.del z (Al.trans x y u v h)
      | cons x1 p =>
          simp at e
          obtain ⟨e1, e2⟩ := e
          subst e1
          rcases List.append_eq_append_iff.mp e2 with ⟨r, hr1, hr2⟩ | ⟨r, hr1, hr2⟩
          · -- `p = u ++ r`, `y :: s = r ++ q`
            cases r with
            | nil =>
                subst hr1
                simp at hr2
                subst hr2
                have h1 := Al.trans x y (u ++ [z]) v h
                simp only [List.append_assoc, List.singleton_append] at h1
                simp only [List.append_nil]
                exact h1.cast (by simp; omega)
            | cons y1 r =>
                simp at hr2
                obtain ⟨e3, e4⟩ := hr2
                subst e3
                subst hr1
                have h1 := Al.trans x y u v (ih r q z e4)
                simp only [List.append_assoc, List.cons_append]
                exact h1.cast (by omega)
          · -- `u = p ++ r`, `q = r ++ y :: s`
            subst hr1; subst hr2
            have h1 := Al.trans x y (p ++ z :: r) v h
            simp only [List.append_assoc, List.cons_append] at h1
            exact h1.cast (by simp; omega)

/-- Inserting one symbol anywhere in the target costs at most one more. -/
theorem Al.insert_dst {s t : List α} {k : Nat} (h : Al s t k)
    (p q : List α) (z : α) (e : t = p ++ q) : Al s (p ++ z :: q) (k + 1) :=
  (h.symm.insert_src p q z e).symm

/-- Swapping the first source symbol `q` with a symbol `p` that the target
starts with. -/
theorem Al.swap_aux {s b : List α} {k : Nat} (h : Al s b k) :
    ∀ (q p : α) (t : List α), s = q :: t → AlLe (q :: p :: t) (p :: b) (k + 1) := by
  induction h with
  | nil => intro q p t e; cases e
  | @del x s b k h _ =>
      intro q p t e
      cases e
      exact (Al.del x (Al.match_ p h)).le (by omega)
  | @ins y s b k h ih =>
      intro q p t e
      obtain ⟨k1, hk1, h1⟩ := ih q p t e
      exact (h1.insert_dst [p] b y rfl).le (by omega)
  | @sub x y s b k h _ =>
      intro q p t e
      cases e
      by_cases hxy : x = y
      · subst hxy
        have h1 := Al.trans x p [] [] h
        exact h1.le (by simp)
      · have h1 := Al.sub x p (Al.sub p y h)
        have h2 := subCost_le x p
        have h3 := subCost_le p y
        have h4 : subCost x y = 1 := by simp [subCost, hxy]
        exact h1.le (by omega)
  | @trans x y u v s b k h _ =>
      intro q p t e
      cases e
      have h1 := Al.del x (Al.match_ p (Al.dels u (Al.match_ y (Al.inss v (Al.ins x h)))))
      exact h1.le (by omega)

/-- One edit of the source changes the alignment cost by at most one. -/
theorem Al.step {s1 b : List α} {k : Nat} (h : Al s1 b k) :
    ∀ s : List α, Step s s1 → AlLe s b (k + 1) := by
  induction h with
  | nil =>
      intro s hs
      cases hs with
      | del z _ => exact (Al.del z Al.nil).le (by omega)
  | @del x s0 b k h ih =>
      intro s hs
      cases hs with
      | ins z _ => exact h.le (by omega)
      | del z _ => exact (Al.del z (Al.del x h)).le (by omega)
      | sub x0 z _ => exact (Al.del x0 h).le (by omega)
      | swap x1 y1 s2 => exact (h.insert_src [x1] s2 x rfl).le (by omega)
      | @cons _ s2 _ hs2 =>
          obtain ⟨k1, hk1, h1⟩ := ih s2 hs2
          exact (Al.del x h1).le (by omega)
  | @ins y s0 b k h ih =>
      intro s hs
      obtain ⟨k1, hk1, h1⟩ := ih s hs
      exact (Al.ins y h1).le (by omega)
  | @sub x y s0 b k h ih =>
      intro s hs
      cases hs with
      | ins z _ => exact (Al.ins y h).le (by omega)
      | del z _ => exact (Al.del z (Al.sub x y h)).le (by omega)
      | sub x0 z _ =>
          have h2 := subCost_le x0 y
          exact (Al.sub x0 y h).le (by omega)
      | swap x1 y1 s2 =>
          by_cases hxy : x = y
          · subst hxy
            obtain ⟨k1, hk1, h1⟩ := h.swap_aux x1 x s2 rfl
            exact h1.le (by omega)
          · have h4 : subCost x y = 1 := by simp [subCost, hxy]
            exact (Al.ins y (h.insert_src [x1] s2 x rfl)).le (by omega)
      | @cons _ s2 _ hs2 =>
          obtain ⟨k1, hk1, h1⟩ := ih s2 hs2
          exact (Al.sub x y h1).le (by omega)
  | @trans x y u v s0 b k h ih =>
      intro s hs
      generalize hr : u ++ y :: s0 = r at hs
      cases hs with
      | ins z _ =>
          subst hr
          exact (Al.dels u (Al.match_ y (Al.inss v (Al.ins x h)))).le (by omega)
      | del z _ =>
          subst hr
          exact (Al.del z (Al.trans x y u v h)).le (by omega)
      | sub x0 z _ =>
          subst hr
          exact (Al.del x0 (Al.dels u (Al.match_ y (Al.inss v (Al.ins x h))))).le (by omega)
      | swap x1 y1 s2 =>
          cases u with
          | nil =>
              simp at hr
              obtain ⟨e1, e2⟩ := hr
              subst e1; subst e2
              exact (Al.match_ y (Al.inss v (Al.match_ x h))).le
                (by simp only [List.length_nil]; omega)
          | cons c u2 =>
              simp at hr
              obtain ⟨e1, e2⟩ := hr
              subst e1; subst e2
              exact (Al.del c (Al.trans x y u2 v h)).le
                (by simp only [List.length_cons]; omega)
      | @cons _ s2 _ hs2 =>
          subst hr
          rcases Step.append_inv u hs2 with ⟨u1, e, hl⟩ | ⟨w1, e, hw⟩ | ⟨u0, p, q, w0, e1, e2, e3⟩
          · subst e
            exact (Al.trans x y u1 v h).le (by omega)
          · subst e
            cases hw with
            | ins z _ =>
                exact (Al.ins y (Al.inss v (Al.match_ x (Al.dels u h)))).le (by omega)
            | del z _ =>
                have h1 := Al.trans x y (u ++ [z]) v h
                simp only [List.append_assoc, List.singleton_append] at h1
                exact h1.le (by simp; omega)
            | sub y0 z _ =>
                exact (Al.ins y (Al.inss v (Al.match_ x (Al.dels u (Al.del y0 h))))).le (by omega)
            | swap x1 y1 s3 =>
                exact (Al.ins y (Al.inss v (Al.match_ x (Al.dels u
                  (h.insert_src [x1] s3 y rfl))))).le (by omega)
            | @cons _ s3 _ hs3 =>
                obtain ⟨k1, hk1, h1⟩ := ih s3 hs3
                exact (Al.trans x y u v h1).le (by omega)
          · subst e1; subst e3
            cases e2
            have h1 := Al.trans x y u0 v (Al.del p h)
            exact h1.le (by simp only [List.length_append, List.length_singleton]; omega)

/-! ### Alignments read from the right -/

theorem Al.append {s t : List α} {k : Nat} (h : Al s t k) {s1 t1 : List α} {k1 : Nat}
    (h1 : Al s1 t1 k1) : Al (s ++ s1) (t ++ t1) (k + k1) := by
  induction h with
  | nil => simpa using h1
  | del x _ ih => exact (Al.del x ih).cast (by omega)
  | ins y _ ih => exact (Al.ins y ih).cast (by omega)
  | sub x y _ ih => exact (Al.sub x y ih).cast (by omega)
  | trans x y u v _ ih =>
      have h2 := Al.trans x y u v ih
      simp only [List.cons_append, List.append_assoc]
      exact h2.cast (by omega)

theorem AlR.castR {s t : List α} {k k1 : Nat} (h : AlR s t k) (hk : k = k1) : AlR s t k1 :=
  hk ▸ h

theorem AlR.appendR {s t : List α} {k : Nat} (h : AlR s t k) {s1 t1 : List α} {k1 : Nat}
    (h1 : AlR s1 t1 k1) : AlR (s ++ s1) (t ++ t1) (k + k1) := by
  induction h1 with
  | nil => simpa using h
  | del x _ ih =>
      rw [← List.append_assoc]
      exact (AlR.del x ih).castR (by omega)
  | ins y _ ih =>
      rw [← List.append_assoc]
      exact (AlR.ins y ih).castR (by omega)
  | sub x y _ ih =>
      rw [← List.append_assoc, ← List.append_assoc]
      exact (AlR.sub x y ih).castR (by omega)
  | trans x y u v _ ih =>
      rw [← List.append_assoc, ← List.append_assoc]
      exact (AlR.trans x y u v ih).castR (by omega)

theorem Al.toR {s t : List α} {k : Nat} (h : Al s t k) : AlR s t k := by
  induction h with
  | nil => exact AlR.nil
  | del x _ ih =>
      have h1 := (AlR.del x AlR.nil).appendR ih
      simp only [List.nil_append, List.singleton_append] at h1
      exact h1.castR (by omega)
  | ins y _ ih =>
      have h1 := (AlR.ins y AlR.nil).appendR ih
      simp only [List.nil_append, List.singleton_append] at h1
      exact h1.castR (by omega)
  | sub x y _ ih =>
      have h1 := (AlR.sub x y AlR.nil).appendR ih
      simp only [List.nil_append, List.singleton_append] at h1
      exact h1.castR (by omega)
  | trans x y u v _ ih =>
      have h1 := (AlR.trans x y u v AlR.nil).appendR ih
      simp only [List.nil_append, List.cons_append, List.append_assoc,
        List.singleton_append] at h1
      exact h1.castR (by omega)

theorem AlR.toAl {s t : List α} {k : Nat} (h : AlR s t k) : Al s t k := by
  induction h with
  | nil => exact Al.nil
  | del x _ ih =>
      have h1 := ih.append (Al.del x Al.nil)
      simp only [List.append_nil] at h1
      exact h1
  | ins y _ ih =>
      have h1 := ih.append (Al.ins y Al.nil)
      simp only [List.append_nil] at h1
      exact h1
  | sub x y _ ih =>
      have h1 := ih.append (Al.sub x y Al.nil)
      exact h1.cast (by omega)
  | trans x y u v _ ih =>
      have h1 := ih.append (Al.trans x y u v Al.nil)
      exact h1.cast (by omega)

/-- An alignment changes the length by at most its cost. -/
theorem Al.length_le {s t : List α} {k : Nat} (h : Al s t k) :
    s.length ≤ t.length + k ∧ t.length ≤ s.length + k := by
  induction h with
  | nil => simp
  | del x _ ih => simp only [List.length_cons]; omega
  | ins y _ ih => simp only [List.length_cons]; omega
  | sub x y _ ih => simp only [List.length_cons]; omega
  | trans x y u v _ ih =>
      simp only [List.length_cons, List.length_append]; omega

/-- Some alignment costs no more than the longer of the two sequences. -/
theorem Al.exists_le_max (s : List α) : ∀ t : List α, AlLe s t (max s.length t.length) := by
  induction s with
  | nil =>
      intro t
      have h := Al.inss t (Al.nil : Al ([] : List α) [] 0)
      simp only [List.append_nil] at h
      exact h.le (by simp)
  | cons x s ih =>
      intro t
      cases t with
      | nil =>
          have h := Al.dels (x :: s) (Al.nil : Al ([] : List α) [] 0)
          simp only [List.append_nil] at h
          exact h.le (by simp)
      | cons y t =>
          obtain ⟨k, hk, h⟩ := ih t
          have h1 := subCost_le x y
          exact (Al.sub x y h).le (by simp only [List.length_cons]; omega)

/-- A cost-zero alignment relates equal sequences. -/
theorem Al.eq_of_zero {s t : List α} {k : Nat} (h : Al s t k) : k = 0 → s = t := by
  induction h with
  | nil => intro _; rfl
  | del x _ ih => intro e; omega
  | ins y _ ih => intro e; omega
  | @sub x y s t k _ ih =>
      intro e
      have hk : k = 0 := by omega
      have hc : subCost x y = 0 := by omega
      have hxy : x = y := by
        by_contra hne
        simp [subCost, hne] at hc
      rw [ih hk, hxy]
  | trans x y u v _ ih => intro e; omega

theorem Opt.unique {s t : List α} {k k1 : Nat} (h : Opt s t k) (h1 : Opt s t k1) : k = k1 :=
  le_antisymm (h.2 k1 h1.1) (h1.2 k h.1)

theorem Opt.exists (s t : List α) : ∃ k, Opt s t k := by
  classical
  have hex : ∃ k, Al s t k := by
    obtain ⟨k, _, h⟩ := Al.exists_le_max s t
    exact ⟨k, h⟩
  exact ⟨Nat.find hex, Nat.find_spec hex, fun k1 h1 => Nat.find_min' hex h1⟩

theorem Opt.swap {s t : List α} {k : Nat} (h : Opt s t k) : Opt t s k :=
  ⟨h.1.symm, fun k1 h1 => h.2 k1 h1.symm⟩

theorem Opt.le_max {s t : List α} {k : Nat} (h : Opt s t k) : k ≤ max s.length t.length := by
  obtain ⟨k0, hk0, h0⟩ := Al.exists_le_max s t
  exact le_trans (h.2 k0 h0) hk0

theorem Opt.nil_left (t : List α) : Opt [] t t.length := by
  constructor
  · have h := Al.inss t (Al.nil : Al ([] : List α) [] 0)
    simp only [List.append_nil] at h
    exact h.cast (by omega)
  · intro k1 h1
    have h2 := h1.length_le
    simp only [List.length_nil] at h2
    omega

theorem Opt.nil_right (s : List α) : Opt s [] s.length :=
  (Opt.nil_left s).swap

/-! ### Alignments and edit sequences -/

/-- An alignment of cost `k` is carried out by `k` edits. -/
theorem Al.toEditSeq {s t : List α} {k : Nat} (h : Al s t k) : EditSeq s t k := by
  induction h with
  | nil => exact EditSeq.refl _
  | del x _ ih => exact EditSeq.step (Step.del x _) ih
  | ins y _ ih => exact EditSeq.step (Step.ins y _) (EditSeq.cons y ih)
  | @sub x y s t k _ ih =>
      by_cases hxy : x = y
      · subst hxy
        exact (EditSeq.cons x ih).castSeq (by simp [subCost_self])
      · have hc : subCost x y = 1 := by simp [subCost, hxy]
        rw [hc]
        exact EditSeq.step (Step.sub x y s) (EditSeq.cons y ih)
  | @trans x y u v s t k _ ih =>
      have h1 : EditSeq (x :: (u ++ y :: s)) (x :: y :: s) u.length :=
        EditSeq.cons x (EditSeq.delsSeq u (y :: s))
      have h2 : EditSeq (x :: y :: s) (y :: x :: s) 1 :=
        EditSeq.step (Step.swap x y s) (EditSeq.refl _)
      have h3 : EditSeq (y :: x :: s) (y :: (v ++ x :: s)) v.length :=
        EditSeq.cons y (EditSeq.inssSeq v (x :: s))
      have h4 : EditSeq (y :: (v ++ x :: s)) (y :: (v ++ x :: t)) k :=
        EditSeq.cons y (EditSeq.prependSeq v (EditSeq.cons x ih))
      exact (((h1.chain h2).chain h3).chain h4).castSeq (by omega)

/-- Every sequence of `k` edits is matched by an alignment of cost at most `k`. -/
theorem EditSeq.toAlLe {s t : List α} {k : Nat} (h : EditSeq s t k) : AlLe s t k := by
  induction h with
  | refl s => exact (Al.refl s).le (le_refl _)
  | step hs _ ih =>
      obtain ⟨k1, hk1, h1⟩ := ih
      exact (h1.step _ hs).mono (by omega)

/-- The least alignment cost is the least number of edits. -/
theorem Opt.isLeast_editSeq {s t : List α} {k : Nat} (h : Opt s t k) :
    IsLeast {j : Nat | EditSeq s t j} k := by
  constructor
  · exact h.1.toEditSeq
  · intro j hj
    obtain ⟨k1, hk1, h1⟩ := EditSeq.toAlLe hj
    exact le_trans (h.2 k1 h1) hk1

/-! ### The recurrence of the table -/

theorem Al.min {s t : List α} {k k1 : Nat} (h : Al s t k) (h1 : Al s t k1) :
    Al s t (min k k1) := by
  rcases le_total k k1 with hle | hle
  · rw [min_eq_left hle]; exact h
  · rw [min_eq_right hle]; exact h1

/-- The value written to a cell is the least alignment cost of the two
prefixes, provided the three neighbours and the transposition source are. -/
theorem Opt.snoc_step (s t : List α) (x y : α) (kd ki ks : Nat)
    (hd : Opt s (t ++ [y]) kd) (hi : Opt (s ++ [x]) t ki) (hs : Opt s t ks)
    (i1 j1 : Nat) (hi1 : LastOcc s y i1) (hj1 : LastOcc t x j1) (kt : Nat)
    (hkt : 0 < i1 → 0 < j1 → Opt (s.take (i1 - 1)) (t.take (j1 - 1)) kt) :
    Opt (s ++ [x]) (t ++ [y])
      (if 0 < i1 ∧ 0 < j1 then
        min (min (min (kd + 1) (ki + 1)) (ks + subCost x y))
          (kt + (s.length - i1) + 1 + (t.length - j1))
       else min (min (kd + 1) (ki + 1)) (ks + subCost x y)) := by
  have hbase : Al (s ++ [x]) (t ++ [y]) (min (min (kd + 1) (ki + 1)) (ks + subCost x y)) := by
    refine Al.min (Al.min ?_ ?_) ?_
    · have h1 := hd.1.append (Al.del x Al.nil)
      simp only [List.append_nil] at h1
      exact h1
    · have h1 := hi.1.append (Al.ins y Al.nil)
      simp only [List.append_nil] at h1
      exact h1
    · have h1 := hs.1.append (Al.sub x y Al.nil)
      exact h1.cast (by omega)
  have hlow : ∀ k1, Al (s ++ [x]) (t ++ [y]) k1 →
      min (min (kd + 1) (ki + 1)) (ks + subCost x y) ≤ k1 ∨
      ∃ s0 t0 u v k0, s = s0 ++ y :: u ∧ t = t0 ++ x :: v ∧ Al s0 t0 k0 ∧
        k1 = k0 + u.length + 1 + v.length := by
    intro k1 h1
    have h2 := h1.toR
    generalize hS : s ++ [x] = S at h2
    generalize hT : t ++ [y] = T at h2
    cases h2 with
    | nil => simp at hS
    | @del x1 s1 _ k0 h3 =>
        obtain ⟨e1, e2⟩ := List.append_inj' hS rfl
        subst e1
        subst hT
        have := hd.2 k0 h3.toAl
        left; omega
    | @ins y1 _ t1 k0 h3 =>
        obtain ⟨e1, e2⟩ := List.append_inj' hT rfl
        subst e1
        subst hS
        have := hi.2 k0 h3.toAl
        left; omega
    | @sub x1 y1 s1 t1 k0 h3 =>
        obtain ⟨e1, e2⟩ := List.append_inj' hS rfl
        obtain ⟨e3, e4⟩ := List.append_inj' hT rfl
        subst e1; subst e3
        simp only [List.cons.injEq, and_true] at e2 e4
        subst e2; subst e4
        have := hs.2 k0 h3.toAl
        left; omega
    | @trans x1 y1 u v s1 t1 k0 h3 =>
        right
        have hS1 : s ++ [x] = (s1 ++ x1 :: u) ++ [y1] := by
          rw [hS]; simp
        have hT1 : t ++ [y] = (t1 ++ y1 :: v) ++ [x1] := by
          rw [hT]; simp
        obtain ⟨e1, e2⟩ := List.append_inj' hS1 rfl
        obtain ⟨e3, e4⟩ := List.append_inj' hT1 rfl
        simp only [List.cons.injEq, and_true] at e2 e4
        subst e2; subst e4
        exact ⟨s1, t1, u, v, k0, e1, e3, h3.toAl, rfl⟩
  by_cases hp : 0 < i1 ∧ 0 < j1
  · rw [if_pos hp]
    obtain ⟨hp1, hp2⟩ := hp
    have hk := hkt hp1 hp2
    obtain ⟨hil, his, hin⟩ := hi1
    obtain ⟨hjl, hjs, hjn⟩ := hj1
    have es := split_at_getElem? s (i1 - 1) y (his hp1)
    have et := split_at_getElem? t (j1 - 1) x (hjs hp2)
    constructor
    · refine Al.min hbase ?_
      have h1 := hk.1.append (Al.trans y x (s.drop (i1 - 1 + 1)) (t.drop (j1 - 1 + 1)) Al.nil)
      have es1 : s ++ [x] = s.take (i1 - 1) ++ y :: (s.drop (i1 - 1 + 1) ++ [x]) := by
        conv_lhs => rw [es]
        simp
      have et1 : t ++ [y] = t.take (j1 - 1) ++ x :: (t.drop (j1 - 1 + 1) ++ [y]) := by
        conv_lhs => rw [et]
        simp
      rw [es1, et1]
      refine h1.cast ?_
      simp only [List.length_drop]
      omega
    · intro k1 h1
      rcases hlow k1 h1 with hle | ⟨s0, t0, u, v, k0, e1, e2, h0, ek⟩
      · exact le_trans (min_le_left _ _) hle
      · refine le_trans (min_le_right _ _) ?_
        have hs0 : s0.length < i1 := by
          by_contra hge
          have hge1 : i1 ≤ s0.length := by omega
          apply hin s0.length hge1
          rw [e1]
          exact getElem?_append_cons s0 u y
        have ht0 : t0.length < j1 := by
          by_contra hge
          have hge1 : j1 ≤ t0.length := by omega
          apply hjn t0.length hge1
          rw [e2]
          exact getElem?_append_cons t0 v x
        have hsl : s.length = s0.length + 1 + u.length := by
          rw [e1]; simp; omega
        have htl : t.length = t0.length + 1 + v.length := by
          rw [e2]; simp; omega
        have e3 : s.take (i1 - 1) = s0 ++ (y :: u).take (i1 - 1 - s0.length) := by
          rw [e1, List.take_append_eq_append_take]
          rw [List.take_of_length_le (by omega)]
        have e4 : t.take (j1 - 1) = t0 ++ (x :: v).take (j1 - 1 - t0.length) := by
          rw [e2, List.take_append_eq_append_take]
          rw [List.take_of_length_le (by omega)]
        have h2 := h0.append (Al.dels ((y :: u).take (i1 - 1 - s0.length))
          (Al.inss ((x :: v).take (j1 - 1 - t0.length)) Al.nil))
        simp only [List.append_nil] at h2
        rw [← e3, ← e4] at h2
        have h3 := hk.2 _ h2
        simp only [List.length_take, List.length_cons] at h3
        omega
  · rw [if_neg hp]
    constructor
    · exact hbase
    · intro k1 h1
      rcases hlow k1 h1 with hle | ⟨s0, t0, u, v, k0, e1, e2, h0, ek⟩
      · exact hle
      · exfalso
        apply hp
        obtain ⟨hil, his, hin⟩ := hi1
        obtain ⟨hjl, hjs, hjn⟩ := hj1
        constructor
        · by_contra hge
          have hge1 : i1 ≤ s0.length := by omega
          apply hin s0.length hge1
          rw [e1]
          exact getElem?_append_cons s0 u y
        · by_contra hge
          have hge1 : j1 ≤ t0.length := by omega
          apply hjn t0.length hge1
          rw [e2]
          exact getElem?_append_cons t0 v x

/-- Without a common symbol no alignment is cheaper than the longer sequence:
every source symbol is deleted or substituted, every target symbol inserted or
substituted, and no transposition block fits. -/
theorem Al.max_le_of_disjoint {s t : List α} {k : Nat} (h : Al s t k) :
    (∀ x, x ∈ s → x ∉ t) → max s.length t.length ≤ k := by
  induction h with
  | nil => intro _; simp
  | @del x s t k _ ih =>
      intro hd
      have h1 := ih (fun z hz => hd z (List.mem_cons_of_mem x hz))
      simp only [List.length_cons]
      omega
  | @ins y s t k _ ih =>
      intro hd
      have h1 := ih (fun z hz hzt => hd z hz (List.mem_cons_of_mem y hzt))
      simp only [List.length_cons]
      omega
  | @sub x y s t k _ ih =>
      intro hd
      have h1 := ih (fun z hz hzt =>
        hd z (List.mem_cons_of_mem x hz) (List.mem_cons_of_mem y hzt))
      have hxy : x ≠ y := by
        intro e
        apply hd x (List.mem_cons_self x s)
        rw [e]
        exact List.mem_cons_self y t
      have hc : subCost x y = 1 := by simp [subCost, hxy]
      simp only [List.length_cons]
      omega
  | @trans x y u v s t k _ ih =>
      intro hd
      exfalso
      apply hd x (List.mem_cons_self x _)
      apply List.mem_cons_of_mem
      apply List.mem_append_right
      exact List.mem_cons_self x t

/-- The least alignment cost obeys the triangle inequality. -/
theorem Opt.triangle {s t u : List α} {k1 k2 k3 : Nat} (h1 : Opt s t k1) (h2 : Opt t u k2)
    (h3 : Opt s u k3) : k3 ≤ k1 + k2 := by
  obtain ⟨k0, hk0, h0⟩ := (h1.1.toEditSeq.chain h2.1.toEditSeq).toAlLe
  exact le_trans (h3.2 k0 h0) hk0

end Alignments

/-! ## The table of the program -/

theorem idx_lt (n m r c : Nat) (hr : r ≤ n + 1) (hc : c ≤ m + 1) :
    r * (m + 2) + c < (n + 2) * (m + 2) := by
  have h1 : (r + 1) * (m + 2) ≤ (n + 2) * (m + 2) := Nat.mul_le_mul_right _ (by omega)
  rw [Nat.add_mul, Nat.one_mul] at h1
  omega

theorem idx_inj (m r c r1 c1 : Nat) (hc : c ≤ m + 1) (hc1 : c1 ≤ m + 1)
    (h : r * (m + 2) + c = r1 * (m + 2) + c1) : r = r1 ∧ c = c1 := by
  rcases Nat.lt_trichotomy r r1 with h1 | h1 | h1
  · have h2 : (r + 1) * (m + 2) ≤ r1 * (m + 2) := Nat.mul_le_mul_right _ h1
    rw [Nat.add_mul, Nat.one_mul] at h2
    omega
  · subst h1
    exact ⟨rfl, by omega⟩
  · have h2 : (r1 + 1) * (m + 2) ≤ r * (m + 2) := Nat.mul_le_mul_right _ h1
    rw [Nat.add_mul, Nat.one_mul] at h2
    omega

theorem length_atSet (m : Nat) (d : List Int) (r c : Nat) (v : Int) :
    (atSet m d r c v).length = d.length := by
  unfold atSet
  exact List.length_set _ _ _

/-- Reading a cell after a write to the table. -/
theorem atGet_atSet (m : Nat) (d : List Int) (r c : Nat) (v : Int) (r1 c1 : Nat)
    (hc : c ≤ m + 1) (hc1 : c1 ≤ m + 1) (hlen : r * (m + 2) + c < d.length) :
    atGet m (atSet m d r c v) r1 c1 = if r = r1 ∧ c = c1 then v else atGet m d r1 c1 := by
  unfold atGet atSet
  simp only [List.getD_eq_getElem?_getD]
  by_cases h : r = r1 ∧ c = c1
  · obtain ⟨e1, e2⟩ := h
    subst e1; subst e2
    rw [List.getElem?_set_self hlen]
    simp
  · have hne : r * (m + 2) + c ≠ r1 * (m + 2) + c1 :=
      fun e => h (idx_inj m r c r1 c1 hc hc1 e)
    rw [List.getElem?_set_ne hne, if_neg h]

/-- Invariant rule for a counted loop `for (k = s; k < s + len; ++k)`. -/
theorem foldl_range_inv {σ : Type} (f : σ → Nat → σ) (P : Nat → σ → Prop) (s : Nat) :
    ∀ (len : Nat) (init : σ), P s init →
      (∀ k st, s ≤ k → k < s + len → P k st → P (k + 1) (f st k)) →
      P (s + len) ((List.range' s len).foldl f init) := by
  intro len
  induction len with
  | zero =>
      intro init h0 _
      simpa using h0
  | succ len ih =>
      intro init h0 hstep
      rw [List.range'_concat, List.foldl_append]
      simp only [List.foldl_cons, List.foldl_nil, Nat.one_mul]
      have h1 := ih init h0 (fun k st hk1 hk2 hP => hstep k st hk1 (by omega) hP)
      have h2 := hstep (s + len) _ (by omega) (by omega) h1
      exact h2

theorem getD_eq_of_getElem? {β : Type} (l : List β) (i : Nat) (dflt : β) (h : i < l.length) :
    l[i]? = some (l.getD i dflt) := by
  rw [List.getD_eq_getElem?_getD, List.getElem?_eq_getElem h]
  simp

theorem take_succ_getD {β : Type} (l : List β) (i : Nat) (dflt : β) (h : i < l.length) :
    l.take (i + 1) = l.take i ++ [l.getD i dflt] := by
  rw [List.take_succ, getD_eq_of_getElem? l i dflt h]
  rfl

/-- The table after the initialisation loops. -/
theorem initTable_ok (a b : List Byte) : TableOK a b 1 1 (initTable a.length b.length) := by
  generalize hn : a.length = n
  generalize hm : b.length = m
  let INF : Int := (n : Int) + (m : Int)
  let L : Nat := (n + 2) * (m + 2)
  -- first loop
  let P1 : Nat → List Int → Prop := fun k d => d.length = L ∧ atGet m d 0 0 = INF ∧
      ∀ i, i < k → atGet m d (i + 1) 0 = INF ∧ atGet m d (i + 1) 1 = (i : Int)
  have h1 : P1 (0 + (n + 1)) ((List.range' 0 (n + 1)).foldl (initRowStep m INF)
        (atSet m (List.replicate L 0) 0 0 INF)) := by
    refine foldl_range_inv _ P1 0 _ _ ?_ ?_
    · refine ⟨?_, ?_, ?_⟩
      · rw [length_atSet]; simp
      · rw [atGet_atSet _ _ _ _ _ _ _ (by omega) (by omega)
          (by simp only [List.length_replicate]; exact idx_lt n m 0 0 (by omega) (by omega))]
        simp
      · intro i hi; omega
    · intro k d hk1 hk2 hP
      obtain ⟨hl, h00, hcells⟩ := hP
      have hlt0 : (k + 1) * (m + 2) + 0 < d.length := by
        rw [hl]; exact idx_lt n m (k + 1) 0 (by omega) (by omega)
      have hlt1 : (k + 1) * (m + 2) + 1 < (atSet m d (k + 1) 0 INF).length := by
        rw [length_atSet, hl]; exact idx_lt n m (k + 1) 1 (by omega) (by omega)
      unfold initRowStep
      refine ⟨?_, ?_, ?_⟩
      · rw [length_atSet, length_atSet]; exact hl
      · rw [atGet_atSet _ _ _ _ _ _ _ (by omega) (by omega) hlt1,
          atGet_atSet _ _ _ _ _ _ _ (by omega) (by omega) hlt0]
        simp [h00]
      · intro i hi
        rw [atGet_atSet _ _ _ _ _ _ _ (by omega) (by omega) hlt1,
          atGet_atSet _ _ _ _ _ _ _ (by omega) (by omega) hlt0,
          atGet_atSet _ _ _ _ _ _ _ (by omega) (by omega) hlt1,
          atGet_atSet _ _ _ _ _ _ _ (by omega) (by omega) hlt0]
        by_cases hik : i = k
        · subst hik; simp
        · have hne : ¬ (k + 1 = i + 1) := by omega
          have := hcells i (by omega)
          simp [hne, this]
  obtain ⟨hl1, h100, h1cells⟩ := h1
  -- second loop
  let P2 : Nat → List Int → Prop := fun k d => d.length = L ∧ atGet m d 0 0 = INF ∧
      (∀ i, i ≤ n → atGet m d (i + 1) 0 = INF ∧ atGet m d (i + 1) 1 = (i : Int)) ∧
      ∀ j, j < k → atGet m d 0 (j + 1) = INF ∧ atGet m d 1 (j + 1) = (j : Int)
  have h2 : P2 (0 + (m + 1)) ((List.range' 0 (m + 1)).foldl (initColStep m INF)
        ((List.range' 0 (n + 1)).foldl (initRowStep m INF)
          (atSet m (List.replicate L 0) 0 0 INF))) := by
    refine foldl_range_inv _ P2 0 _ _ ?_ ?_
    · refine ⟨hl1, h100, ?_, ?_⟩
      · intro i hi; exact h1cells i (by omega)
      · intro j hj; omega
    · intro k d hk1 hk2 hP
      obtain ⟨hl, h00, hcol, hrow⟩ := hP
      have hlt0 : 0 * (m + 2) + (k + 1) < d.length := by
        rw [hl]; exact idx_lt n m 0 (k + 1) (by omega) (by omega)
      have hlt1 : 1 * (m + 2) + (k + 1) < (atSet m d 0 (k + 1) INF).length := by
        rw [length_atSet, hl]; exact idx_lt n m 1 (k + 1) (by omega) (by omega)
      unfold initColStep
      refine ⟨?_, ?_, ?_, ?_⟩
      · rw [length_atSet, length_atSet]; exact hl
      · rw [atGet_atSet _ _ _ _ _ _ _ (by omega) (by omega) hlt1,
          atGet_atSet _ _ _ _ _ _ _ (by omega) (by omega) hlt0]
        simp [h00]
      · intro i hi
        rw [atGet_atSet _ _ _ _ _ _ _ (by omega) (by omega) hlt1,
          atGet_atSet _ _ _ _ _ _ _ (by omega) (by omega) hlt0,
          atGet_atSet _ _ _ _ _ _ _ (by omega) (by omega) hlt1,
          atGet_atSet _ _ _ _ _ _ _ (by omega) (by omega) hlt0]
        have := hcol i hi
        constructor
        · simp [this]
        · by_cases hc : 1 = i + 1 ∧ k + 1 = 1
          · obtain ⟨e1, e2⟩ := hc
            have ei : i = 0 := by omega
            have ek : k = 0 := by omega
            subst ei; subst ek
            simp
          · rw [if_neg hc, if_neg (by omega)]
            exact this.2
      · intro j hj
        rw [atGet_atSet _ _ _ _ _ _ _ (by omega) (by omega) hlt1,
          atGet_atSet _ _ _ _ _ _ _ (by omega) (by omega) hlt0,
          atGet_atSet _ _ _ _ _ _ _ (by omega) (by omega) hlt1,
          atGet_atSet _ _ _ _ _ _ _ (by omega) (by omega) hlt0]
        by_cases hjk : j = k
        · subst hjk; simp
        · have hne : ¬ (k + 1 = j + 1) := by omega
          have := hrow j (by omega)
          simp [hne, this]
  obtain ⟨hl2, h200, h2col, h2row⟩ := h2
  have hinit : initTable n m = (List.range' 0 (m + 1)).foldl (initColStep m INF)
        ((List.range' 0 (n + 1)).foldl (initRowStep m INF)
          (atSet m (List.replicate L 0) 0 0 INF)) := by
    unfold initTable
    simp only [List.range_eq_range']
  rw [hinit]
  subst hn; subst hm
  refine ⟨hl2, ?_, ?_, ?_⟩
  · intro c hc
    cases c with
    | zero => exact h200
    | succ j => exact (h2row j (by omega)).1
  · intro r hr
    cases r with
    | zero => exact h200
    | succ i => exact (h2col i (by omega)).1
  · intro r c hr hc hf
    have hf1 : r = 0 ∨ c = 0 := by omega
    rcases hf1 with e | e
    · subst e
      refine ⟨c, (h2row c (by omega)).2, ?_⟩
      have h := Opt.nil_left (b.take c)
      rw [List.length_take, min_eq_left hc] at h
      simpa using h
    · subst e
      refine ⟨r, (h2col r hr).2, ?_⟩
      have h := Opt.nil_right (a.take r)
      rw [List.length_take, min_eq_left hr] at h
      simpa using h

theorem LastOcc.nil {α : Type} (c : α) : LastOcc ([] : List α) c 0 := by
  refine ⟨le_refl _, ?_, ?_⟩
  · intro h; omega
  · intro q _; simp

/-- The last occurrence after one more symbol has been scanned. -/
theorem LastOcc.snoc {α : Type} [DecidableEq α] {s : List α} {c : α} {p : Nat}
    (h : LastOcc s c p) (y : α) :
    LastOcc (s ++ [y]) c (if c = y then s.length + 1 else p) := by
  obtain ⟨hl, hs, hn⟩ := h
  by_cases hcy : c = y
  · rw [if_pos hcy]
    subst hcy
    refine ⟨by simp, ?_, ?_⟩
    · intro _
      simp
    · intro q hq
      rw [List.getElem?_eq_none (by simp; omega)]
      simp
  · rw [if_neg hcy]
    refine ⟨by simp; omega, ?_, ?_⟩
    · intro hp
      rw [List.getElem?_append_left (by omega)]
      exact hs hp
    · intro q hq
      by_cases hq1 : q < s.length
      · rw [List.getElem?_append_left hq1]
        exact hn q hq
      · by_cases hq2 : q = s.length
        · subst hq2
          rw [List.getElem?_append_right (le_refl _)]
          simp
          exact fun e => hcy e.symm
        · rw [List.getElem?_eq_none (by simp; omega)]
          simp

/-- Writing the least cost of the prefixes `(i, j)` into `at(i + 1, j + 1)`
extends the filled part of the table by that cell. -/
theorem TableOK.write {a b : List Byte} {i j : Nat} {d : List Int} (h : TableOK a b i j d)
    (hi : i ≤ a.length) (hj : j ≤ b.length) (k : Nat)
    (hk : Opt (a.take i) (b.take j) k) :
    TableOK a b i (j + 1) (atSet b.length d (i + 1) (j + 1) (k : Int)) := by
  have hlt : (i + 1) * (b.length + 2) + (j + 1) < d.length := by
    rw [h.len]; exact idx_lt _ _ _ _ (by omega) (by omega)
  refine ⟨?_, ?_, ?_, ?_⟩
  · rw [length_atSet]; exact h.len
  · intro c hc
    rw [atGet_atSet _ _ _ _ _ _ _ (by omega) hc hlt, if_neg (by omega)]
    exact h.row0 c hc
  · intro r hr
    rw [atGet_atSet _ _ _ _ _ _ _ (by omega) (by omega) hlt, if_neg (by omega)]
    exact h.col0 r hr
  · intro r c hr hc hf
    rw [atGet_atSet _ _ _ _ _ _ _ (by omega) (by omega) hlt]
    by_cases hrc : i + 1 = r + 1 ∧ j + 1 = c + 1
    · rw [if_pos hrc]
      have e1 : r = i := by omega
      have e2 : c = j := by omega
      subst e1; subst e2
      exact ⟨k, rfl, hk⟩
    · rw [if_neg hrc]
      exact h.cells r c hr hc (by omega)

/-- The arithmetic of one cell: the minimum the program writes, computed in
`int`, is the recurrence value over the naturals.  Without a transposition
partner the sentinel makes the fourth candidate lose. -/
theorem written_value (vd vi vs vt cost : Int) (kd ki ks kt sc i0 j0 i1 j1 n m : Nat)
    (hd : vd = (kd : Int)) (hi : vi = (ki : Int)) (hs : vs = (ks : Int))
    (hc : cost = (sc : Int)) (h1 : i1 ≤ i0) (h2 : j1 ≤ j0) (hn : i0 < n) (hm : j0 < m)
    (hmax : ks ≤ max i0 j0) (hsc : sc ≤ 1)
    (ht : 0 < i1 → 0 < j1 → vt = (kt : Int))
    (hinf : ¬ (0 < i1 ∧ 0 < j1) → vt = (n : Int) + (m : Int)) :
    min (min (min (vd + 1) (vi + 1)) (vs + cost))
        (vt + (((i0 + 1 : Nat) : Int) - (i1 : Int) - 1) + 1 +
          (((j0 + 1 : Nat) : Int) - (j1 : Int) - 1)) =
      ((if 0 < i1 ∧ 0 < j1 then
        min (min (min (kd + 1) (ki + 1)) (ks + sc)) (kt + (i0 - i1) + 1 + (j0 - j1))
       else min (min (kd + 1) (ki + 1)) (ks + sc) : Nat) : Int) := by
  subst hd; subst hi; subst hs; subst hc
  have e1 : ((i0 + 1 : Nat) : Int) - (i1 : Int) - 1 = ((i0 - i1 : Nat) : Int) := by omega
  have e2 : ((j0 + 1 : Nat) : Int) - (j1 : Int) - 1 = ((j0 - j1 : Nat) : Int) := by omega
  rw [e1, e2]
  by_cases hp : 0 < i1 ∧ 0 < j1
  · rw [if_pos hp, ht hp.1 hp.2]
    push_cast
    rfl
  · rw [if_neg hp, hinf hp]
    have hle : min (min ((kd : Int) + 1) ((ki : Int) + 1)) ((ks : Int) + (sc : Int)) ≤
        (n : Int) + (m : Int) + ((i0 - i1 : Nat) : Int) + 1 + ((j0 - j1 : Nat) : Int) := by
      refine le_trans (min_le_right _ _) ?_
      have h3 : max i0 j0 ≤ i0 + j0 := by omega
      omega
    rw [min_eq_left hle]
    push_cast
    rfl

/-- One iteration of the inner loop fills the cell `(i, j)` correctly and
keeps `db` the last column of `b` before `j + 1` that matches `a[i-1]`. -/
theorem innerStep_ok (a b : List Byte) (i j : Nat) (hi : 1 ≤ i) (hin : i ≤ a.length)
    (hj : 1 ≤ j) (hjm : j ≤ b.length) (da : List Nat)
    (hda : ∀ c : Byte, LastOcc (a.take (i - 1)) c (da.getD c.val 0))
    (st : List Int × Nat) (hT : TableOK a b i j st.1)
    (hdb : LastOcc (b.take (j - 1)) (a.getD (i - 1) 0) st.2) :
    TableOK a b i (j + 1) (innerStep a b b.length i da st j).1 ∧
      LastOcc (b.take j) (a.getD (i - 1) 0) (innerStep a b b.length i da st j).2 := by
  obtain ⟨i0, rfl⟩ : ∃ i0, i = i0 + 1 := ⟨i - 1, by omega⟩
  obtain ⟨j0, rfl⟩ : ∃ j0, j = j0 + 1 := ⟨j - 1, by omega⟩
  simp only [Nat.add_sub_cancel] at hda hdb ⊢
  generalize hx : a.getD i0 0 = x at hdb ⊢
  generalize hy : b.getD j0 0 = y
  have hta : a.take (i0 + 1) = a.take i0 ++ [x] := by
    rw [← hx]; exact take_succ_getD a i0 0 (by omega)
  have htb : b.take (j0 + 1) = b.take j0 ++ [y] := by
    rw [← hy]; exact take_succ_getD b j0 0 (by omega)
  have hla : (a.take i0).length = i0 := by
    rw [List.length_take]; omega
  have hlb : (b.take j0).length = j0 := by
    rw [List.length_take]; omega
  obtain ⟨d, db⟩ := st
  simp only at hT hdb
  -- the three neighbours
  obtain ⟨kd, hkd, hod⟩ := hT.cells i0 (j0 + 1) (by omega) hjm (by omega)
  obtain ⟨ki, hki, hoi⟩ := hT.cells (i0 + 1) j0 hin (by omega) (by omega)
  obtain ⟨ks, hks, hos⟩ := hT.cells i0 j0 (by omega) (by omega) (by omega)
  rw [htb] at hod
  rw [hta] at hoi
  -- the transposition source
  have hi1 := hda y
  generalize hi1v : da.getD y.val 0 = i1 at hi1
  have hi1le : i1 ≤ i0 := by have := hi1.1; omega
  have hj1le : db ≤ j0 := by have := hdb.1; omega
  have hkt : ∃ kt : Nat, (0 < i1 → 0 < db →
      atGet b.length d i1 db = (kt : Int) ∧
        Opt ((a.take i0).take (i1 - 1)) ((b.take j0).take (db - 1)) kt) := by
    by_cases hp : 0 < i1 ∧ 0 < db
    · obtain ⟨kt, hkt1, hkt2⟩ := hT.cells (i1 - 1) (db - 1) (by omega) (by omega) (by omega)
      refine ⟨kt, fun h1 h2 => ⟨?_, ?_⟩⟩
      · have e1 : i1 - 1 + 1 = i1 := by omega
        have e2 : db - 1 + 1 = db := by omega
        rw [e1, e2] at hkt1
        exact hkt1
      · rw [List.take_take, List.take_take, min_eq_left (by omega), min_eq_left (by omega)]
        exact hkt2
    · exact ⟨0, fun h1 h2 => absurd ⟨h1, h2⟩ hp⟩
  obtain ⟨kt, hkt⟩ := hkt
  have hopt := Opt.snoc_step (a.take i0) (b.take j0) x y kd ki ks hod hoi hos i1 db hi1 hdb kt
    (fun h1 h2 => (hkt h1 h2).2)
  rw [← hta, ← htb, hla, hlb] at hopt
  have hsmax := hos.le_max
  rw [hla, hlb] at hsmax
  have hsc := subCost_le x y
  -- the value written
  have hval := written_value (atGet b.length d (i0 + 1) (j0 + 1 + 1))
    (atGet b.length d (i0 + 1 + 1) (j0 + 1)) (atGet b.length d (i0 + 1) (j0 + 1))
    (atGet b.length d i1 db) (if x = y then (0 : Int) else 1)
    kd ki ks kt (subCost x y) i0 j0 i1 db a.length b.length hkd hki hks
    (by unfold subCost; split <;> simp) hi1le hj1le (by omega) (by omega) hsmax hsc
    (fun h1 h2 => (hkt h1 h2).1)
    (by
      intro h0
      by_cases h1 : i1 = 0
      · rw [h1]; exact hT.row0 db (by omega)
      · have h2 : db = 0 := by omega
        rw [h2]; exact hT.col0 i1 (by omega))
  unfold innerStep
  simp only [Nat.add_sub_cancel, hx, hy, hi1v]
  constructor
  · rw [hval]
    exact hT.write hin hjm _ hopt
  · have h1 := hdb.snoc y
    rw [← htb, hlb] at h1
    exact h1

/-- The inner loop fills row `i`. -/
theorem innerLoop_ok (a b : List Byte) (i : Nat) (hi : 1 ≤ i) (hin : i ≤ a.length)
    (da : List Nat) (hda : ∀ c : Byte, LastOcc (a.take (i - 1)) c (da.getD c.val 0))
    (d : List Int) (hT : TableOK a b i 1 d) :
    TableOK a b (i + 1) 1
      ((List.range' 1 b.length).foldl (innerStep a b b.length i da) (d, 0)).1 := by
  let P : Nat → List Int × Nat → Prop := fun j st =>
    TableOK a b i j st.1 ∧ LastOcc (b.take (j - 1)) (a.getD (i - 1) 0) st.2
  have h : P (1 + b.length)
      ((List.range' 1 b.length).foldl (innerStep a b b.length i da) (d, 0)) := by
    refine foldl_range_inv _ P 1 _ _ ?_ ?_
    · exact ⟨hT, by simpa using LastOcc.nil _⟩
    · intro j st hj1 hj2 hP
      have h1 := innerStep_ok a b i j hi hin hj1 (by omega) da hda st hP.1 hP.2
      exact ⟨h1.1, by simpa using h1.2⟩
  obtain ⟨h1, _⟩ := h
  refine ⟨h1.len, h1.row0, h1.col0, ?_⟩
  intro r c hr hc hf
  exact h1.cells r c hr hc (by omega)

/-- One iteration of the outer loop: row `i` is filled and `da` records the
last row of each symbol among the first `i` symbols of `a`. -/
theorem outerStep_ok (a b : List Byte) (i : Nat) (hi : 1 ≤ i) (hin : i ≤ a.length)
    (st : List Int × List Nat) (hT : TableOK a b i 1 st.1) (hlen : st.2.length = 256)
    (hda : ∀ c : Byte, LastOcc (a.take (i - 1)) c (st.2.getD c.val 0)) :
    TableOK a b (i + 1) 1 (outerStep a b b.length st i).1 ∧
      (outerStep a b b.length st i).2.length = 256 ∧
      ∀ c : Byte, LastOcc (a.take i) c ((outerStep a b b.length st i).2.getD c.val 0) := by
  obtain ⟨d, da⟩ := st
  simp only at hT hlen hda
  unfold outerStep
  refine ⟨innerLoop_ok a b i hi hin da hda d hT, ?_, ?_⟩
  · simp only [List.length_set]; exact hlen
  · intro c
    have h1 := (hda c).snoc (a.getD (i - 1) 0)
    have e1 : a.take (i - 1) ++ [a.getD (i - 1) 0] = a.take i := by
      have := take_succ_getD a (i - 1) 0 (by omega)
      rw [← this]
      congr 1
      omega
    have e2 : (a.take (i - 1)).length + 1 = i := by
      rw [List.length_take]; omega
    rw [e1, e2] at h1
    generalize a.getD (i - 1) 0 = x at h1 ⊢
    have e3 : (da.set x.val i).getD c.val 0 = if c = x then i else da.getD c.val 0 := by
      by_cases hc : c = x
      · rw [if_pos hc, ← hc, List.getD_eq_getElem?_getD,
          List.getElem?_set_self (by rw [hlen]; exact c.isLt)]
        rfl
      · rw [if_neg hc, List.getD_eq_getElem?_getD, List.getD_eq_getElem?_getD,
          List.getElem?_set_ne]
        intro e
        exact hc (Fin.ext e.symm)
    simp only
    rw [e3]
    exact h1

/-- The state at the `return` statement. -/
theorem finalState_ok (a b : List Byte) :
    TableOK a b (a.length + 1) 1 (finalState a b).1 := by
  let P : Nat → List Int × List Nat → Prop := fun i st =>
    TableOK a b i 1 st.1 ∧ st.2.length = 256 ∧
      ∀ c : Byte, LastOcc (a.take (i - 1)) c (st.2.getD c.val 0)
  have h : P (1 + a.length) ((List.range' 1 a.length).foldl (outerStep a b b.length)
      (initTable a.length b.length, List.replicate 256 0)) := by
    refine foldl_range_inv _ P 1 _ _ ?_ ?_
    · refine ⟨initTable_ok a b, List.length_replicate _ _, ?_⟩
      intro c
      have e : (List.replicate 256 0).getD c.val 0 = 0 := by
        simp only [List.getD_eq_getElem?_getD, List.getElem?_replicate]
        split <;> rfl
      rw [e]
      simpa using LastOcc.nil c
    · intro i st hi1 hi2 hP
      obtain ⟨hT, hlen, hda⟩ := hP
      have h1 := outerStep_ok a b i hi1 (by omega) st hT hlen hda
      exact ⟨h1.1, h1.2.1, by simpa using h1.2.2⟩
  have h1 := h.1
  rw [Nat.add_comm] at h1
  exact h1

/-- Every cell of the returned table holds the least alignment cost of the
two prefixes it stands for. -/
theorem finalTable_cell (a b : List Byte) (r c : Nat) (hr : r ≤ a.length) (hc : c ≤ b.length) :
    ∃ k : Nat, atGet b.length (finalTable a b) (r + 1) (c + 1) = (k : Int) ∧
      Opt (a.take r) (b.take c) k :=
  (finalState_ok a b).cells r c hr hc (by omega)

/-- The result is the least alignment cost of the two arguments. -/
theorem dl_opt (a b : List Byte) :
    ∃ k : Nat, damerau_levenshtein_true a b = (k : Int) ∧ Opt a b k := by
  obtain ⟨k, h1, h2⟩ := finalTable_cell a b a.length b.length (le_refl _) (le_refl _)
  rw [List.take_length, List.take_length] at h2
  exact ⟨k, h1, h2⟩

/-! ## The run, iteration by iteration -/

/-- The state at the `return` statement is the state at the top of the
iteration `n + 1` that the outer loop does not enter. -/
theorem rowState_final (a b : List Byte) : rowState a b (a.length + 1) = finalState a b := by
  unfold rowState finalState
  simp only [Nat.add_sub_cancel]

/-- Iteration `i` of the outer loop leads from `rowState i` to `rowState (i + 1)`. -/
theorem rowState_succ (a b : List Byte) (i : Nat) (hi : 1 ≤ i) :
    rowState a b (i + 1) = outerStep a b b.length (rowState a b i) i := by
  unfold rowState
  obtain ⟨i0, rfl⟩ : ∃ i0, i = i0 + 1 := ⟨i - 1, by omega⟩
  simp only [Nat.add_sub_cancel]
  rw [List.range'_concat, List.foldl_append]
  simp only [List.foldl_cons, List.foldl_nil, Nat.one_mul]
  rw [Nat.add_comm 1 i0]

/-- Iteration `j` of the inner loop leads from `cellState i j` to
`cellState i (j + 1)`. -/
theorem cellState_succ (a b : List Byte) (i j : Nat) (hj : 1 ≤ j) :
    cellState a b i (j + 1) =
      innerStep a b b.length i (rowState a b i).2 (cellState a b i j) j := by
  unfold cellState
  obtain ⟨j0, rfl⟩ : ∃ j0, j = j0 + 1 := ⟨j - 1, by omega⟩
  simp only [Nat.add_sub_cancel]
  rw [List.range'_concat, List.foldl_append]
  simp only [List.foldl_cons, List.foldl_nil, Nat.one_mul]
  rw [Nat.add_comm 1 j0]

/-- The outer loop continues with the table the inner loop leaves. -/
theorem rowState_succ_table (a b : List Byte) (i : Nat) (hi : 1 ≤ i) :
    (rowState a b (i + 1)).1 = (cellState a b i (b.length + 1)).1 := by
  rw [rowState_succ a b i hi]
  unfold outerStep cellState
  simp only [Nat.add_sub_cancel]

/-- Iteration `(i, j)` writes the minimum of its four candidates to
`at(i + 1, j + 1)` and nothing else. -/
theorem cellState_succ_table (a b : List Byte) (i j : Nat) (hj : 1 ≤ j) :
    (cellState a b i (j + 1)).1 =
      atSet b.length (cellState a b i j).1 (i + 1) (j + 1)
        (min (min (min (delAt a b i j) (insAt a b i j)) (subAt a b i j)) (transpAt a b i j)) := by
  rw [cellState_succ a b i j hj]
  rfl

/-- The invariant at the top of every iteration of the outer loop. -/
theorem rowState_ok (a b : List Byte) (i : Nat) (hi : 1 ≤ i) (hin : i ≤ a.length + 1) :
    TableOK a b i 1 (rowState a b i).1 ∧ (rowState a b i).2.length = 256 ∧
      ∀ c : Byte, LastOcc (a.take (i - 1)) c ((rowState a b i).2.getD c.val 0) := by
  let P : Nat → List Int × List Nat → Prop := fun i st =>
    TableOK a b i 1 st.1 ∧ st.2.length = 256 ∧
      ∀ c : Byte, LastOcc (a.take (i - 1)) c (st.2.getD c.val 0)
  have h : P (1 + (i - 1)) (rowState a b i) := by
    unfold rowState
    refine foldl_range_inv _ P 1 _ _ ?_ ?_
    · refine ⟨initTable_ok a b, List.length_replicate _ _, ?_⟩
      intro c
      have e : (List.replicate 256 0).getD c.val 0 = 0 := by
        simp only [List.getD_eq_getElem?_getD, List.getElem?_replicate]
        split <;> rfl
      rw [e]
      simpa using LastOcc.nil c
    · intro k st hk1 hk2 hP
      obtain ⟨hT, hlen, hda⟩ := hP
      have h1 := outerStep_ok a b k hk1 (by omega) st hT hlen hda
      exact ⟨h1.1, h1.2.1, by simpa using h1.2.2⟩
  have e : 1 + (i - 1) = i := by omega
  rw [e] at h
  exact h

/-- The invariant at the top of every iteration of the inner loop. -/
theorem cellState_ok (a b : List Byte) (i j : Nat) (hi : 1 ≤ i) (hin : i ≤ a.length)
    (hj : 1 ≤ j) (hjm : j ≤ b.length + 1) :
    TableOK a b i j (cellState a b i j).1 ∧
      LastOcc (b.take (j - 1)) (a.getD (i - 1) 0) (cellState a b i j).2 := by
  obtain ⟨hT, _, hda⟩ := rowState_ok a b i hi (by omega)
  let P : Nat → List Int × Nat → Prop := fun j st =>
    TableOK a b i j st.1 ∧ LastOcc (b.take (j - 1)) (a.getD (i - 1) 0) st.2
  have h : P (1 + (j - 1)) (cellState a b i j) := by
    unfold cellState
    refine foldl_range_inv _ P 1 _ _ ?_ ?_
    · exact ⟨hT, by simpa using LastOcc.nil _⟩
    · intro k st hk1 hk2 hP
      have h1 := innerStep_ok a b i k hi hin hk1 (by omega) _ hda st hP.1 hP.2
      exact ⟨h1.1, by simpa using h1.2⟩
  have e : 1 + (j - 1) = j := by omega
  rw [e] at h
  exact h

/-- The positions recorded by `LastOcc` are the greatest ones before the bound. -/
theorem LastOcc.greatestBefore {s : List Byte} {c : Byte} {q p : Nat} (hq : q ≤ s.length)
    (h : LastOcc (s.take q) c p) : GreatestBefore s c (q + 1) p := by
  obtain ⟨hl, hs, hn⟩ := h
  rw [List.length_take, min_eq_left hq] at hl
  have hget : ∀ k, k < q → (s.take q)[k]? = some (s.getD k 0) := by
    intro k hk
    rw [List.getElem?_take_of_lt hk]
    exact getD_eq_of_getElem? s k 0 (by omega)
  have hno : ∀ k, 1 ≤ k → k < q + 1 → p < k → s.getD (k - 1) 0 ≠ c := by
    intro k hk1 hk2 hpk e
    apply hn (k - 1) (by omega)
    rw [hget (k - 1) (by omega), e]
  by_cases hp : p = 0
  · left
    refine ⟨hp, ?_⟩
    intro k hk1 hk2
    exact hno k hk1 hk2 (by omega)
  · right
    refine ⟨by omega, by omega, ?_, ?_⟩
    · have h1 := hs (by omega)
      rw [hget (p - 1) (by omega)] at h1
      exact Option.some.inj h1
    · intro k hk1 hk2 e
      by_contra hlt
      exact hno k hk1 hk2 (by omega) e

/-- What iteration `(i, j)` reads: three cells that hold costs bounded by the
longer prefix, positions `i1 < i` and `j1 < j`, and a transposition source that
is such a cell when both positions are positive and the sentinel otherwise. -/
theorem iter_reads (a b : List Byte) (i j : Nat) (hi : 1 ≤ i) (hin : i ≤ a.length)
    (hj : 1 ≤ j) (hjm : j ≤ b.length) :
    (∃ kd : Nat, atGet b.length (cellState a b i j).1 i (j + 1) = (kd : Int) ∧
        kd ≤ max (i - 1) j) ∧
    (∃ ki : Nat, atGet b.length (cellState a b i j).1 (i + 1) j = (ki : Int) ∧
        ki ≤ max i (j - 1)) ∧
    (∃ ks : Nat, atGet b.length (cellState a b i j).1 i j = (ks : Int) ∧
        ks ≤ max (i - 1) (j - 1)) ∧
    i1At a b i j < i ∧ j1At a b i j < j ∧
    (0 < i1At a b i j ∧ 0 < j1At a b i j →
      ∃ kt : Nat, atGet b.length (cellState a b i j).1 (i1At a b i j) (j1At a b i j) = (kt : Int) ∧
        kt ≤ max (i1At a b i j - 1) (j1At a b i j - 1)) ∧
    (¬ (0 < i1At a b i j ∧ 0 < j1At a b i j) →
      atGet b.length (cellState a b i j).1 (i1At a b i j) (j1At a b i j) =
        (a.length : Int) + (b.length : Int)) := by
  obtain ⟨hT, hdb⟩ := cellState_ok a b i j hi hin hj (by omega)
  obtain ⟨_, _, hda⟩ := rowState_ok a b i hi (by omega)
  have hi1 := (hda (b.getD (j - 1) 0)).1
  have hj1 := hdb.1
  rw [List.length_take] at hi1 hj1
  have hi1lt : i1At a b i j < i := by unfold i1At; omega
  have hj1lt : j1At a b i j < j := by unfold j1At; omega
  have hcell : ∀ r c, r ≤ a.length → c ≤ b.length → (r < i ∨ (r = i ∧ c < j)) →
      ∃ k : Nat, atGet b.length (cellState a b i j).1 (r + 1) (c + 1) = (k : Int) ∧
        k ≤ max r c := by
    intro r c hr hc hf
    obtain ⟨k, hk1, hk2⟩ := hT.cells r c hr hc (by omega)
    have h3 := hk2.le_max
    rw [List.length_take, List.length_take, min_eq_left hr, min_eq_left hc] at h3
    exact ⟨k, hk1, h3⟩
  obtain ⟨i0, rfl⟩ : ∃ i0, i = i0 + 1 := ⟨i - 1, by omega⟩
  obtain ⟨j0, rfl⟩ : ∃ j0, j = j0 + 1 := ⟨j - 1, by omega⟩
  simp only [Nat.add_sub_cancel]
  refine ⟨hcell i0 (j0 + 1) (by omega) hjm (by omega),
    hcell (i0 + 1) j0 hin (by omega) (by omega),
    hcell i0 j0 (by omega) (by omega) (by omega), hi1lt, hj1lt, ?_, ?_⟩
  · intro hp
    obtain ⟨k, hk1, hk2⟩ := hcell (i1At a b (i0 + 1) (j0 + 1) - 1) (j1At a b (i0 + 1) (j0 + 1) - 1)
      (by omega) (by omega) (by omega)
    have e1 : i1At a b (i0 + 1) (j0 + 1) - 1 + 1 = i1At a b (i0 + 1) (j0 + 1) := by omega
    have e2 : j1At a b (i0 + 1) (j0 + 1) - 1 + 1 = j1At a b (i0 + 1) (j0 + 1) := by omega
    rw [e1, e2] at hk1
    exact ⟨k, hk1, hk2⟩
  · intro hp
    by_cases h0 : i1At a b (i0 + 1) (j0 + 1) = 0
    · rw [h0]; exact hT.row0 _ (by omega)
    · have h1 : j1At a b (i0 + 1) (j0 + 1) = 0 := by omega
      rw [h1]; exact hT.col0 _ (by omega)

/-- The cell `at(i + 1, j + 1)` right after iteration `(i, j)`. -/
theorem written_cell (a b : List Byte) (i j : Nat) (hi : 1 ≤ i) (hin : i ≤ a.length)
    (hj : 1 ≤ j) (hjm : j ≤ b.length) :
    atGet b.length (cellState a b i (j + 1)).1 (i + 1) (j + 1) =
      min (min (min (delAt a b i j) (insAt a b i j)) (subAt a b i j)) (transpAt a b i j) := by
  obtain ⟨hT, _⟩ := cellState_ok a b i j hi hin hj (by omega)
  rw [cellState_succ_table a b i j hj,
    atGet_atSet _ _ _ _ _ _ _ (by omega) (by omega)
      (by rw [hT.len]; exact idx_lt _ _ _ _ (by omega) (by omega))]
  simp

/-- Bounds of `cost`. -/
theorem costAt_bounds (a b : List Byte) (i j : Nat) :
    0 ≤ costAt a b i j ∧ costAt a b i j ≤ 1 := by
  unfold costAt
  split <;> omega

/-! ## No wrap-around -/

theorem wrap32_eq (x : Int) (h0 : -2147483648 ≤ x) (h1 : x < 2147483648) : wrap32 x = x := by
  unfold wrap32
  omega

theorem add32_eq (x y : Int) (h0 : -2147483648 ≤ x + y) (h1 : x + y < 2147483648) :
    add32 x y = x + y :=
  wrap32_eq _ h0 h1

theorem sub32_eq (x y : Int) (h0 : -2147483648 ≤ x - y) (h1 : x - y < 2147483648) :
    sub32 x y = x - y :=
  wrap32_eq _ h0 h1

theorem mul32_eq (x y : Int) (h0 : -2147483648 ≤ x * y) (h1 : x * y < 2147483648) :
    mul32 x y = x * y :=
  wrap32_eq _ h0 h1

/-- What the size bound gives for the two lengths. -/
theorem size_bound (n m : Nat) (h : (n + 2) * (m + 2) ≤ 2147483647) :
    2 * (n + m) + 4 ≤ 2147483647 := by
  have e : (n + 2) * (m + 2) = n * m + 2 * n + 2 * m + 4 := by ring
  have h0 : 0 ≤ n * m := Nat.zero_le _
  omega

/-- Inside the grid the index computed in `int` is the index. -/
theorem idx32_eq (n m i j : Nat) (h : (n + 2) * (m + 2) ≤ 2147483647) (hi : i ≤ n + 1)
    (hj : j ≤ m + 1) : idx32 (m : Int) (i : Int) (j : Int) = i * (m + 2) + j := by
  have hs := size_bound n m h
  have hlt := idx_lt n m i j hi hj
  have h1 : add32 (m : Int) 2 = ((m + 2 : Nat) : Int) := by
    rw [add32_eq _ _ (by omega) (by omega)]
    push_cast; rfl
  have h2 : mul32 (i : Int) ((m + 2 : Nat) : Int) = ((i * (m + 2) : Nat) : Int) := by
    have e : (i : Int) * ((m + 2 : Nat) : Int) = ((i * (m + 2) : Nat) : Int) := by push_cast; rfl
    rw [mul32_eq _ _ (by rw [e]; omega) (by rw [e]; omega), e]
  unfold idx32
  rw [h1, h2, add32_eq _ _ (by omega) (by omega)]
  omega

theorem atGet32_eq (n m : Nat) (d : List Int) (i j : Nat) (h : (n + 2) * (m + 2) ≤ 2147483647)
    (hi : i ≤ n + 1) (hj : j ≤ m + 1) : atGet32 (m : Int) d (i : Int) (j : Int) = atGet m d i j := by
  unfold atGet32 atGet
  rw [idx32_eq n m i j h hi hj]

theorem atSet32_eq (n m : Nat) (d : List Int) (i j : Nat) (v : Int)
    (h : (n + 2) * (m + 2) ≤ 2147483647) (hi : i ≤ n + 1) (hj : j ≤ m + 1) :
    atSet32 (m : Int) d (i : Int) (j : Int) v = atSet m d i j v := by
  unfold atSet32 atSet
  rw [idx32_eq n m i j h hi hj]

/-- Two counted loops with bodies that agree under an invariant agree. -/
theorem foldl_range_congr {σ : Type} (g f : σ → Nat → σ) (P : Nat → σ → Prop) :
    ∀ (len s : Nat) (init : σ), P s init →
      (∀ k st, s ≤ k → k < s + len → P k st → g st k = f st k ∧ P (k + 1) (f st k)) →
      (List.range' s len).foldl g init = (List.range' s len).foldl f init := by
  intro len
  induction len with
  | zero =>
      intro s init _ _
      rfl
  | succ len ih =>
      intro s init h0 hstep
      obtain ⟨e, hP⟩ := hstep s init (le_refl _) (by omega) h0
      rw [List.range'_succ, List.foldl_cons, List.foldl_cons, e]
      exact ih (s + 1) (f init s) hP (fun k st hk1 hk2 hk => hstep k st (by omega) (by omega) hk)

theorem succ32_eq (k : Nat) (h : k + 1 < 2147483648) :
    add32 (k : Int) 1 = ((k + 1 : Nat) : Int) := by
  rw [add32_eq _ _ (by omega) (by omega)]
  push_cast; rfl

theorem pred32_toNat (k : Nat) (h : k < 2147483648) : (sub32 (k : Int) 1).toNat = k - 1 := by
  rw [sub32_eq _ _ (by omega) (by omega)]
  omega

/-- The initialisation in `int` gives the same table. -/
theorem initTable32_eq (n m : Nat) (h : (n + 2) * (m + 2) ≤ 2147483647) :
    initTable32 (n : Int) (m : Int) = initTable n m := by
  have hs := size_bound n m h
  have hINF : add32 (n : Int) (m : Int) = (n : Int) + (m : Int) :=
    add32_eq _ _ (by omega) (by omega)
  have hlen : (mul32 (add32 (n : Int) 2) (add32 (m : Int) 2)).toNat = (n + 2) * (m + 2) := by
    have e : ((n : Int) + 2) * ((m : Int) + 2) = (((n + 2) * (m + 2) : Nat) : Int) := by
      push_cast; rfl
    rw [add32_eq _ _ (by omega) (by omega), add32_eq _ _ (by omega) (by omega),
      mul32_eq _ _ (by rw [e]; omega) (by rw [e]; omega), e]
    exact Int.toNat_ofNat _
  have hn1 : ((n : Int) + 1).toNat = n + 1 := by omega
  have hm1 : ((m : Int) + 1).toNat = m + 1 := by omega
  have h00 : ∀ (d : List Int) (v : Int), atSet32 (m : Int) d 0 0 v = atSet m d 0 0 v := by
    intro d v
    have := atSet32_eq n m d 0 0 v h (by omega) (by omega)
    simpa using this
  have hrow : ∀ (d : List Int) (k : Nat), k < n + 1 →
      initRowStep32 (m : Int) ((n : Int) + (m : Int)) d k =
        initRowStep m ((n : Int) + (m : Int)) d k := by
    intro d k hk
    unfold initRowStep32 initRowStep
    rw [succ32_eq k (by omega)]
    have e0 := atSet32_eq n m d (k + 1) 0 ((n : Int) + (m : Int)) h (by omega) (by omega)
    have e1 := atSet32_eq n m (atSet m d (k + 1) 0 ((n : Int) + (m : Int))) (k + 1) 1 (k : Int) h
      (by omega) (by omega)
    simp only [Nat.cast_zero, Nat.cast_one] at e0 e1
    rw [e0, e1]
  have hcol : ∀ (d : List Int) (k : Nat), k < m + 1 →
      initColStep32 (m : Int) ((n : Int) + (m : Int)) d k =
        initColStep m ((n : Int) + (m : Int)) d k := by
    intro d k hk
    unfold initColStep32 initColStep
    rw [succ32_eq k (by omega)]
    have e0 := atSet32_eq n m d 0 (k + 1) ((n : Int) + (m : Int)) h (by omega) (by omega)
    have e1 := atSet32_eq n m (atSet m d 0 (k + 1) ((n : Int) + (m : Int))) 1 (k + 1) (k : Int) h
      (by omega) (by omega)
    simp only [Nat.cast_zero, Nat.cast_one] at e0 e1
    rw [e0, e1]
  unfold initTable32 initTable
  simp only [hINF, hlen, hn1, hm1, h00, List.range_eq_range']
  rw [foldl_range_congr (initRowStep32 (m : Int) ((n : Int) + (m : Int)))
      (initRowStep m ((n : Int) + (m : Int))) (fun _ _ => True) (n + 1) 0 _ trivial
      (fun k st _ hk _ => ⟨hrow st k (by omega), trivial⟩),
    foldl_range_congr (initColStep32 (m : Int) ((n : Int) + (m : Int)))
      (initColStep m ((n : Int) + (m : Int))) (fun _ _ => True) (m + 1) 0 _ trivial
      (fun k st _ hk _ => ⟨hcol st k (by omega), trivial⟩)]

/-- The arithmetic of one cell does not leave the range of `int`. -/
theorem written_value32 (vd vi vs vt cost i j i1 j1 N : Int)
    (hd : 0 ≤ vd ∧ vd ≤ N) (hi : 0 ≤ vi ∧ vi ≤ N) (hs : 0 ≤ vs ∧ vs ≤ N)
    (ht : 0 ≤ vt ∧ vt ≤ N) (hc : 0 ≤ cost ∧ cost ≤ 1)
    (hi1 : 0 ≤ i1 ∧ i1 < i) (hj1 : 0 ≤ j1 ∧ j1 < j) (hij : i + j ≤ N)
    (hN : 2 * N + 4 ≤ 2147483647) :
    min (min (min (add32 vd 1) (add32 vi 1)) (add32 vs cost))
        (add32 (add32 (add32 vt (sub32 (sub32 i i1) 1)) 1) (sub32 (sub32 j j1) 1)) =
      min (min (min (vd + 1) (vi + 1)) (vs + cost))
        (vt + (i - i1 - 1) + 1 + (j - j1 - 1)) := by
  have e1 : add32 vd 1 = vd + 1 := add32_eq _ _ (by omega) (by omega)
  have e2 : add32 vi 1 = vi + 1 := add32_eq _ _ (by omega) (by omega)
  have e3 : add32 vs cost = vs + cost := add32_eq _ _ (by omega) (by omega)
  have e4 : sub32 i i1 = i - i1 := sub32_eq _ _ (by omega) (by omega)
  have e5 : sub32 (i - i1) 1 = i - i1 - 1 := sub32_eq _ _ (by omega) (by omega)
  have e6 : sub32 j j1 = j - j1 := sub32_eq _ _ (by omega) (by omega)
  have e7 : sub32 (j - j1) 1 = j - j1 - 1 := sub32_eq _ _ (by omega) (by omega)
  have e8 : add32 vt (i - i1 - 1) = vt + (i - i1 - 1) := add32_eq _ _ (by omega) (by omega)
  have e9 : add32 (vt + (i - i1 - 1)) 1 = vt + (i - i1 - 1) + 1 :=
    add32_eq _ _ (by omega) (by omega)
  have e10 : add32 (vt + (i - i1 - 1) + 1) (j - j1 - 1) = vt + (i - i1 - 1) + 1 + (j - j1 - 1) :=
    add32_eq _ _ (by omega) (by omega)
  rw [e1, e2, e3, e4, e5, e6, e7, e8, e9, e10]

/-- Bounds of the four cells iteration `(i, j)` reads. -/
theorem iter_read_bounds (a b : List Byte) (i j : Nat) (hi : 1 ≤ i) (hin : i ≤ a.length)
    (hj : 1 ≤ j) (hjm : j ≤ b.length) :
    (0 ≤ atGet b.length (cellState a b i j).1 i (j + 1) ∧
      atGet b.length (cellState a b i j).1 i (j + 1) ≤ ((a.length + b.length - 1 : Nat) : Int)) ∧
    (0 ≤ atGet b.length (cellState a b i j).1 (i + 1) j ∧
      atGet b.length (cellState a b i j).1 (i + 1) j ≤ ((a.length + b.length - 1 : Nat) : Int)) ∧
    (0 ≤ atGet b.length (cellState a b i j).1 i j ∧
      atGet b.length (cellState a b i j).1 i j ≤ ((a.length + b.length - 1 : Nat) : Int)) ∧
    (0 ≤ atGet b.length (cellState a b i j).1 (i1At a b i j) (j1At a b i j) ∧
      atGet b.length (cellState a b i j).1 (i1At a b i j) (j1At a b i j) ≤
        ((a.length + b.length : Nat) : Int)) ∧
    ((0 < i1At a b i j ∧ 0 < j1At a b i j) →
      atGet b.length (cellState a b i j).1 (i1At a b i j) (j1At a b i j) +
        ((i : Int) - (i1At a b i j : Int)) + ((j : Int) - (j1At a b i j : Int)) ≤
          ((a.length + b.length : Nat) : Int)) := by
  have hr := iter_reads a b i j hi hin hj hjm
  obtain ⟨kd, hkd, hkdle⟩ := hr.1
  obtain ⟨ki, hki, hkile⟩ := hr.2.1
  obtain ⟨ks, hks, hksle⟩ := hr.2.2.1
  have hi1 := hr.2.2.2.1
  have hj1 := hr.2.2.2.2.1
  have htp := hr.2.2.2.2.2.1
  have htn := hr.2.2.2.2.2.2
  clear hr
  refine ⟨?_, ?_, ?_, ?_, ?_⟩
  · clear htp htn
    rw [hkd]; omega
  · clear htp htn
    rw [hki]; omega
  · clear htp htn
    rw [hks]; omega
  · by_cases hp : 0 < i1At a b i j ∧ 0 < j1At a b i j
    · obtain ⟨kt, hkt, hktle⟩ := htp hp
      clear htp htn
      rw [hkt]; omega
    · have e := htn hp
      clear htp htn
      rw [e]; omega
  · intro hp
    obtain ⟨kt, hkt, hktle⟩ := htp hp
    clear htp htn
    rw [hkt]; omega

/-- Along the run, iteration `(i, j)` computes the same in `int`. -/
theorem innerStep32_eq (a b : List Byte) (i j : Nat)
    (h : (a.length + 2) * (b.length + 2) ≤ 2147483647) (hi : 1 ≤ i) (hin : i ≤ a.length)
    (hj : 1 ≤ j) (hjm : j ≤ b.length) :
    innerStep32 a b (b.length : Int) i (rowState a b i).2 (cellState a b i j) j =
      innerStep a b b.length i (rowState a b i).2 (cellState a b i j) j := by
  have hs := size_bound _ _ h
  have hr := iter_reads a b i j hi hin hj hjm
  have hi1 := hr.2.2.2.1
  have hj1 := hr.2.2.2.2.1
  clear hr
  unfold i1At at hi1
  unfold j1At at hj1
  -- the facts about sizes, before any `int` operation is in sight
  have bi : i < 2147483648 := by omega
  have bj : j < 2147483648 := by omega
  have bi1 : i + 1 < 2147483648 := by omega
  have bj1 : j + 1 < 2147483648 := by omega
  have ci : i ≤ a.length + 1 := by omega
  have ci1 : i + 1 ≤ a.length + 1 := by omega
  have cj : j ≤ b.length + 1 := by omega
  have cj1 : j + 1 ≤ b.length + 1 := by omega
  have ct : (rowState a b i).2.getD (b.getD (j - 1) 0).val 0 ≤ a.length + 1 := by omega
  have cu : (cellState a b i j).2 ≤ b.length + 1 := by omega
  have hN : 2 * ((a.length + b.length : Nat) : Int) + 4 ≤ 2147483647 := by omega
  have hij : (i : Int) + (j : Int) ≤ ((a.length + b.length : Nat) : Int) := by omega
  have hi1b : (0 : Int) ≤ (((rowState a b i).2.getD (b.getD (j - 1) 0).val 0 : Nat) : Int) ∧
      (((rowState a b i).2.getD (b.getD (j - 1) 0).val 0 : Nat) : Int) < (i : Int) := by
    constructor <;> omega
  have hj1b : (0 : Int) ≤ (((cellState a b i j).2 : Nat) : Int) ∧
      (((cellState a b i j).2 : Nat) : Int) < (j : Int) := by
    constructor <;> omega
  have hpred : ((a.length + b.length - 1 : Nat) : Int) ≤ ((a.length + b.length : Nat) : Int) := by
    omega
  clear hs hi1 hj1
  have hb := iter_read_bounds a b i j hi hin hj hjm
  have hbd := hb.1
  have hbi := hb.2.1
  have hbs := hb.2.2.1
  have hbt := hb.2.2.2.1
  clear hb
  unfold i1At j1At at hbt
  have hc := costAt_bounds a b i j
  unfold costAt at hc
  have hv := written_value32
    (atGet b.length (cellState a b i j).1 i (j + 1))
    (atGet b.length (cellState a b i j).1 (i + 1) j)
    (atGet b.length (cellState a b i j).1 i j)
    (atGet b.length (cellState a b i j).1
      ((rowState a b i).2.getD (b.getD (j - 1) 0).val 0) (cellState a b i j).2)
    (if a.getD (i - 1) 0 = b.getD (j - 1) 0 then 0 else 1)
    (i : Int) (j : Int) (((rowState a b i).2.getD (b.getD (j - 1) 0).val 0 : Nat) : Int)
    (((cellState a b i j).2 : Nat) : Int) ((a.length + b.length : Nat) : Int)
    ⟨hbd.1, le_trans hbd.2 hpred⟩ ⟨hbi.1, le_trans hbi.2 hpred⟩
    ⟨hbs.1, le_trans hbs.2 hpred⟩ hbt hc hi1b hj1b hij hN
  have ej := pred32_toNat j bj
  have ei := pred32_toNat i bi
  have ej1 := succ32_eq j bj1
  have ei1 := succ32_eq i bi1
  have g1 := atGet32_eq a.length b.length (cellState a b i j).1 i (j + 1) h ci cj1
  have g2 := atGet32_eq a.length b.length (cellState a b i j).1 (i + 1) j h ci1 cj
  have g3 := atGet32_eq a.length b.length (cellState a b i j).1 i j h ci cj
  have g4 := atGet32_eq a.length b.length (cellState a b i j).1
    ((rowState a b i).2.getD (b.getD (j - 1) 0).val 0) (cellState a b i j).2 h ct cu
  unfold innerStep32 innerStep
  simp only [ej, ei, ej1, ei1, g1, g2, g3, g4, hv]
  exact congrArg (fun d => (d, _)) (atSet32_eq a.length b.length _ (i + 1) (j + 1) _ h ci1 cj1)

/-- Along the run, iteration `i` of the outer loop computes the same in `int`. -/
theorem outerStep32_eq (a b : List Byte) (i : Nat)
    (h : (a.length + 2) * (b.length + 2) ≤ 2147483647) (hi : 1 ≤ i) (hin : i ≤ a.length) :
    outerStep32 a b (b.length : Int) (rowState a b i) i =
      outerStep a b b.length (rowState a b i) i := by
  have hs := size_bound _ _ h
  have bi : i < 2147483648 := by omega
  clear hs
  have hloop := foldl_range_congr (innerStep32 a b (b.length : Int) i (rowState a b i).2)
    (innerStep a b b.length i (rowState a b i).2) (fun j st => st = cellState a b i j)
    b.length 1 ((rowState a b i).1, 0) rfl
    (by
      intro j st hj1 hj2 hst
      subst hst
      exact ⟨innerStep32_eq a b i j h hi hin hj1 (Nat.le_of_lt_succ (by rw [Nat.add_comm] at hj2; exact hj2)),
        (cellState_succ a b i j hj1).symm⟩)
  have ei := pred32_toNat i bi
  unfold outerStep32 outerStep
  simp only [Int.toNat_ofNat, hloop, ei]

/-- With a table that fits a 32-bit index, the run in `int` returns the same. -/
theorem dl32_eq (a b : List Byte) (h : (a.length + 2) * (b.length + 2) ≤ 2147483647) :
    damerau_levenshtein_true32 a b = damerau_levenshtein_true a b := by
  have hs := size_bound _ _ h
  have bn0 : (-2147483648 : Int) ≤ (a.length : Int) := by omega
  have bn1 : (a.length : Int) < 2147483648 := by omega
  have bm0 : (-2147483648 : Int) ≤ (b.length : Int) := by omega
  have bm1 : (b.length : Int) < 2147483648 := by omega
  have bn : a.length + 1 < 2147483648 := by omega
  have bm : b.length + 1 < 2147483648 := by omega
  clear hs
  have hloop := foldl_range_congr (outerStep32 a b (b.length : Int))
    (outerStep a b b.length) (fun i st => st = rowState a b i)
    a.length 1 (initTable a.length b.length, List.replicate 256 0) rfl
    (by
      intro i st hi1 hi2 hst
      subst hst
      exact ⟨outerStep32_eq a b i h hi1 (Nat.le_of_lt_succ (by rw [Nat.add_comm] at hi2; exact hi2)),
        (rowState_succ a b i hi1).symm⟩)
  have hn : wrap32 (a.length : Int) = (a.length : Int) := wrap32_eq _ bn0 bn1
  have hm : wrap32 (b.length : Int) = (b.length : Int) := wrap32_eq _ bm0 bm1
  have en := succ32_eq a.length bn
  have em := succ32_eq b.length bm
  have hinit := initTable32_eq a.length b.length h
  unfold damerau_levenshtein_true32 damerau_levenshtein_true finalTable finalState
  simp only [hn, hm, Int.toNat_ofNat, hinit, hloop, en, em]
  exact atGet32_eq a.length b.length _ (a.length + 1) (b.length + 1) h (le_refl _) (le_refl _)

/-- Every entry of the returned table lies between 0 and `INF = n + m`. -/
theorem finalTable_bounds (a b : List Byte) :
    ∀ x, x ∈ finalTable a b → 0 ≤ x ∧ x ≤ (a.length : Int) + (b.length : Int) := by
  intro x hx
  have hT := finalState_ok a b
  obtain ⟨idx, hlt, e⟩ := List.mem_iff_getElem.mp hx
  have hlen : (finalTable a b).length = (a.length + 2) * (b.length + 2) := hT.len
  have hm : 0 < b.length + 2 := by omega
  have hdm := Nat.div_add_mod idx (b.length + 2)
  have hc : idx % (b.length + 2) < b.length + 2 := Nat.mod_lt _ hm
  have hr : idx / (b.length + 2) < a.length + 2 := by
    apply Nat.div_lt_of_lt_mul
    rw [Nat.mul_comm, ← hlen]
    exact hlt
  have hidx : idx / (b.length + 2) * (b.length + 2) + idx % (b.length + 2) = idx := by
    rw [Nat.mul_comm]; exact hdm
  have hget : atGet b.length (finalTable a b) (idx / (b.length + 2)) (idx % (b.length + 2)) = x := by
    unfold atGet
    rw [hidx, List.getD_eq_getElem?_getD, List.getElem?_eq_getElem hlt, e]
    rfl
  generalize idx / (b.length + 2) = r at hr hget
  generalize idx % (b.length + 2) = c at hc hget
  clear hdm hidx
  rw [← hget]
  by_cases hr0 : r = 0
  · subst hr0
    have h0 := hT.row0 c (by omega)
    have e0 : atGet b.length (finalTable a b) 0 c = (a.length : Int) + (b.length : Int) := h0
    rw [e0]; omega
  · by_cases hc0 : c = 0
    · subst hc0
      have h0 := hT.col0 r (by omega)
      have e0 : atGet b.length (finalTable a b) r 0 = (a.length : Int) + (b.length : Int) := h0
      rw [e0]; omega
    · obtain ⟨k, hk1, hk2⟩ := hT.cells (r - 1) (c - 1) (by omega) (by omega) (by omega)
      have h3 := hk2.le_max
      rw [List.length_take, List.length_take] at h3
      have e1 : r - 1 + 1 = r := by omega
      have e2 : c - 1 + 1 = c := by omega
      rw [e1, e2] at hk1
      have e0 : atGet b.length (finalTable a b) r c = (k : Int) := hk1
      rw [e0]; omega

/-- The four candidates of iteration `(i, j)` lie between 0 and `2 * (n + m)`,
and the value written between 0 and `n + m`. -/
theorem candidate_bounds (a b : List Byte) (i j : Nat) (hi : 1 ≤ i) (hin : i ≤ a.length)
    (hj : 1 ≤ j) (hjm : j ≤ b.length) :
    (0 ≤ delAt a b i j ∧ delAt a b i j ≤ 2 * ((a.length : Int) + (b.length : Int))) ∧
    (0 ≤ insAt a b i j ∧ insAt a b i j ≤ 2 * ((a.length : Int) + (b.length : Int))) ∧
    (0 ≤ subAt a b i j ∧ subAt a b i j ≤ 2 * ((a.length : Int) + (b.length : Int))) ∧
    (0 ≤ transpAt a b i j ∧ transpAt a b i j ≤ 2 * ((a.length : Int) + (b.length : Int))) ∧
    (0 ≤ min (min (min (delAt a b i j) (insAt a b i j)) (subAt a b i j)) (transpAt a b i j) ∧
      min (min (min (delAt a b i j) (insAt a b i j)) (subAt a b i j)) (transpAt a b i j) ≤
        (a.length : Int) + (b.length : Int)) := by
  have hb := iter_read_bounds a b i j hi hin hj hjm
  have hbd := hb.1
  have hbi := hb.2.1
  have hbs := hb.2.2.1
  have hbt := hb.2.2.2.1
  clear hb
  have hr := iter_reads a b i j hi hin hj hjm
  have hi1 := hr.2.2.2.1
  have hj1 := hr.2.2.2.2.1
  clear hr
  have hc := costAt_bounds a b i j
  obtain ⟨hT, _⟩ := cellState_ok a b i (j + 1) hi hin (by omega) (by omega)
  obtain ⟨k, hk1, hk2⟩ := hT.cells i j hin hjm (by omega)
  have h3 := hk2.le_max
  rw [List.length_take, List.length_take] at h3
  rw [written_cell a b i j hi hin hj hjm] at hk1
  clear hT hk2
  refine ⟨?_, ?_, ?_, ?_, ?_⟩
  · unfold delAt; omega
  · unfold insAt; omega
  · unfold subAt; omega
  · unfold transpAt; omega
  · rw [hk1]; omega

/-! ## The program as compiled, inside the size bound -/

/-- Inside the grid the `int` the code computes for `at(i, j)` is the flat index. -/
theorem flat32_eq (n m i j : Nat) (h : (n + 2) * (m + 2) ≤ 2147483647) (hi : i ≤ n + 1)
    (hj : j ≤ m + 1) : flat32 (m : Int) (i : Int) (j : Int) = ((i * (m + 2) + j : Nat) : Int) := by
  have hs := size_bound n m h
  have hlt := idx_lt n m i j hi hj
  have h1 : add32 (m : Int) 2 = ((m + 2 : Nat) : Int) := by
    rw [add32_eq _ _ (by omega) (by omega)]
    push_cast; rfl
  have h2 : mul32 (i : Int) ((m + 2 : Nat) : Int) = ((i * (m + 2) : Nat) : Int) := by
    have e : (i : Int) * ((m + 2 : Nat) : Int) = ((i * (m + 2) : Nat) : Int) := by push_cast; rfl
    rw [mul32_eq _ _ (by rw [e]; omega) (by rw [e]; omega), e]
  unfold flat32
  rw [h1, h2, add32_eq _ _ (by omega) (by omega)]
  push_cast; rfl

/-- The size of the vector, computed in `int`, is `(n + 2) * (m + 2)`. -/
theorem size32_eq (n m : Nat) (h : (n + 2) * (m + 2) ≤ 2147483647) :
    mul32 (add32 (n : Int) 2) (add32 (m : Int) 2) = (((n + 2) * (m + 2) : Nat) : Int) := by
  have hs := size_bound n m h
  have e : ((n : Int) + 2) * ((m : Int) + 2) = (((n + 2) * (m + 2) : Nat) : Int) := by
    push_cast; rfl
  rw [add32_eq _ _ (by omega) (by omega), add32_eq _ _ (by omega) (by omega),
    mul32_eq _ _ (by rw [e]; omega) (by rw [e]; omega), e]

theorem allocC32_eq (n m : Nat) (h : (n + 2) * (m + 2) ≤ 2147483647) :
    allocC32 (mul32 (add32 (n : Int) 2) (add32 (m : Int) 2)) =
      some (List.replicate ((n + 2) * (m + 2)) 0) := by
  unfold allocC32
  rw [size32_eq n m h, if_pos (Int.ofNat_nonneg _), Int.toNat_ofNat]

theorem atGetC32_eq (n m : Nat) (d : List Int) (i j : Nat) (h : (n + 2) * (m + 2) ≤ 2147483647)
    (hi : i ≤ n + 1) (hj : j ≤ m + 1) (hl : d.length = (n + 2) * (m + 2)) :
    atGetC32 (m : Int) d (i : Int) (j : Int) = some (atGet m d i j) := by
  unfold atGetC32 atGet
  rw [flat32_eq n m i j h hi hj, if_pos (Int.ofNat_nonneg _), Int.toNat_ofNat]
  exact getD_eq_of_getElem? d _ 0 (by rw [hl]; exact idx_lt n m i j hi hj)

theorem atSetC32_eq (n m : Nat) (d : List Int) (i j : Nat) (v : Int)
    (h : (n + 2) * (m + 2) ≤ 2147483647) (hi : i ≤ n + 1) (hj : j ≤ m + 1)
    (hl : d.length = (n + 2) * (m + 2)) :
    atSetC32 (m : Int) d (i : Int) (j : Int) v = some (atSet m d i j v) := by
  unfold atSetC32 atSet
  rw [flat32_eq n m i j h hi hj, Int.toNat_ofNat,
    if_pos ⟨Int.ofNat_nonneg _, by rw [hl]; exact idx_lt n m i j hi hj⟩]

/-- Reading `s[k - 1]` with the index computed in `int`. -/
theorem strGetC32_pred (s : List Byte) (k : Nat) (h1 : 1 ≤ k) (hk : k ≤ s.length)
    (hb : k < 2147483648) : strGetC32 s (sub32 (k : Int) 1) = some (s.getD (k - 1) 0) := by
  have hlt : k - 1 < s.length := by omega
  have e : sub32 (k : Int) 1 = ((k - 1 : Nat) : Int) := by
    rw [sub32_eq _ _ (by omega) (by omega)]
    omega
  unfold strGetC32
  rw [e, if_pos (Int.ofNat_nonneg _), Int.toNat_ofNat]
  exact getD_eq_of_getElem? s _ 0 hlt

/-- A step that succeeds hands its result to the rest of the program. -/
theorem bind_some_eq {α β : Type} (x : α) (f : α → Option β) : (some x >>= f) = f x :=
  Eq.trans (Option.some_bind x f) (Eq.refl (f x))

/-- A checked counted loop succeeds, with the result of the unchecked loop, when
every iteration does so under an invariant. -/
theorem foldlM_range_eq {σ : Type} (fC : σ → Nat → Option σ) (f : σ → Nat → σ)
    (P : Nat → σ → Prop) : ∀ (len s : Nat) (init : σ), P s init →
      (∀ k st, s ≤ k → k < s + len → P k st → fC st k = some (f st k) ∧ P (k + 1) (f st k)) →
      (List.range' s len).foldlM fC init = some ((List.range' s len).foldl f init) := by
  intro len
  induction len with
  | zero =>
      intro s init _ _
      rfl
  | succ len ih =>
      intro s init h0 hstep
      obtain ⟨e, hP⟩ := hstep s init (le_refl _) (by omega) h0
      rw [List.range'_succ, List.foldlM_cons, e, List.foldl_cons, bind_some_eq]
      exact ih (s + 1) (f init s) hP (fun k st hk1 hk2 hk => hstep k st (by omega) (by omega) hk)

/-- Inside the size bound the checked initialisation succeeds and gives the
table of the initialisation. -/
theorem initTableC32_eq (n m : Nat) (h : (n + 2) * (m + 2) ≤ 2147483647) :
    initTableC32 (n : Int) (m : Int) = some (initTable n m) := by
  have hs := size_bound n m h
  have hrow : ∀ d0 : List Int, d0.length = (n + 2) * (m + 2) →
      (List.range' 0 (n + 1)).foldlM (initRowStepC32 (m : Int) ((n : Int) + (m : Int))) d0 =
        some ((List.range' 0 (n + 1)).foldl (initRowStep m ((n : Int) + (m : Int))) d0) := by
    intro d0 h0
    refine foldlM_range_eq _ _ (fun _ d => d.length = (n + 2) * (m + 2)) _ _ _ h0 ?_
    intro k d _ hk hl
    have hk1 : k + 1 ≤ n + 1 := by omega
    constructor
    · unfold initRowStepC32 initRowStep
      rw [succ32_eq k (by omega)]
      have e0 := atSetC32_eq n m d (k + 1) 0 ((n : Int) + (m : Int)) h hk1 (by omega) hl
      have e1 := atSetC32_eq n m (atSet m d (k + 1) 0 ((n : Int) + (m : Int))) (k + 1) 1 (k : Int) h
        hk1 (by omega) (by rw [length_atSet]; exact hl)
      simp only [Nat.cast_zero, Nat.cast_one] at e0 e1
      rw [e0, bind_some_eq, e1]
    · show (initRowStep m _ d k).length = _
      unfold initRowStep
      rw [length_atSet, length_atSet]; exact hl
  have hcol : ∀ d0 : List Int, d0.length = (n + 2) * (m + 2) →
      (List.range' 0 (m + 1)).foldlM (initColStepC32 (m : Int) ((n : Int) + (m : Int))) d0 =
        some ((List.range' 0 (m + 1)).foldl (initColStep m ((n : Int) + (m : Int))) d0) := by
    intro d0 h0
    refine foldlM_range_eq _ _ (fun _ d => d.length = (n + 2) * (m + 2)) _ _ _ h0 ?_
    intro k d _ hk hl
    have hk1 : k + 1 ≤ m + 1 := by omega
    constructor
    · unfold initColStepC32 initColStep
      rw [succ32_eq k (by omega)]
      have e0 := atSetC32_eq n m d 0 (k + 1) ((n : Int) + (m : Int)) h (by omega) hk1 hl
      have e1 := atSetC32_eq n m (atSet m d 0 (k + 1) ((n : Int) + (m : Int))) 1 (k + 1) (k : Int) h
        (by omega) hk1 (by rw [length_atSet]; exact hl)
      simp only [Nat.cast_zero, Nat.cast_one] at e0 e1
      rw [e0, bind_some_eq, e1]
    · show (initColStep m _ d k).length = _
      unfold initColStep
      rw [length_atSet, length_atSet]; exact hl
  have hrowlen : ∀ d0 : List Int, d0.length = (n + 2) * (m + 2) →
      ((List.range' 0 (n + 1)).foldl (initRowStep m ((n : Int) + (m : Int))) d0).length =
        (n + 2) * (m + 2) := by
    intro d0 h0
    have h := foldl_range_inv (initRowStep m ((n : Int) + (m : Int)))
      (fun _ d => d.length = (n + 2) * (m + 2)) 0 (n + 1) d0 h0
      (by
        intro k d _ _ hl
        show (initRowStep m _ d k).length = _
        unfold initRowStep
        rw [length_atSet, length_atSet]; exact hl)
    exact h
  have hl0 : (List.replicate ((n + 2) * (m + 2)) (0 : Int)).length = (n + 2) * (m + 2) :=
    List.length_replicate _ _
  have h00 := atSetC32_eq n m (List.replicate ((n + 2) * (m + 2)) (0 : Int)) 0 0
    ((n : Int) + (m : Int)) h (by omega) (by omega) hl0
  simp only [Nat.cast_zero] at h00
  have hn1 : ((n : Int) + 1).toNat = n + 1 := by omega
  have hm1 : ((m : Int) + 1).toNat = m + 1 := by omega
  have hINF : add32 (n : Int) (m : Int) = (n : Int) + (m : Int) :=
    add32_eq _ _ (by omega) (by omega)
  unfold initTableC32 initTable
  simp only [List.range_eq_range', hINF, hn1, hm1, allocC32_eq n m h, bind_some_eq, h00]
  rw [hrow _ (by rw [length_atSet]; exact hl0), bind_some_eq,
    hcol _ (hrowlen _ (by rw [length_atSet]; exact hl0))]

/-- Along the run and inside the size bound, iteration `(i, j)` makes no
out-of-range access and computes, in `int`, what the iteration computes. -/
theorem innerStepC32_eq (a b : List Byte) (i j : Nat)
    (h : (a.length + 2) * (b.length + 2) ≤ 2147483647) (hi : 1 ≤ i) (hin : i ≤ a.length)
    (hj : 1 ≤ j) (hjm : j ≤ b.length) :
    innerStepC32 a b (b.length : Int) i (rowState a b i).2 (cellState a b i j) j =
      some (innerStep a b b.length i (rowState a b i).2 (cellState a b i j) j) := by
  have hs := size_bound _ _ h
  have hr := iter_reads a b i j hi hin hj hjm
  have hi1 := hr.2.2.2.1
  have hj1 := hr.2.2.2.2.1
  clear hr
  unfold i1At at hi1
  unfold j1At at hj1
  have bi : i < 2147483648 := by omega
  have bj : j < 2147483648 := by omega
  have bi1 : i + 1 < 2147483648 := by omega
  have bj1 : j + 1 < 2147483648 := by omega
  have ci : i ≤ a.length + 1 := by omega
  have ci1 : i + 1 ≤ a.length + 1 := by omega
  have cj : j ≤ b.length + 1 := by omega
  have cj1 : j + 1 ≤ b.length + 1 := by omega
  have ct : (rowState a b i).2.getD (b.getD (j - 1) 0).val 0 ≤ a.length + 1 := by omega
  have cu : (cellState a b i j).2 ≤ b.length + 1 := by omega
  have hN : 2 * ((a.length + b.length : Nat) : Int) + 4 ≤ 2147483647 := by omega
  have hij : (i : Int) + (j : Int) ≤ ((a.length + b.length : Nat) : Int) := by omega
  have hi1b : (0 : Int) ≤ (((rowState a b i).2.getD (b.getD (j - 1) 0).val 0 : Nat) : Int) ∧
      (((rowState a b i).2.getD (b.getD (j - 1) 0).val 0 : Nat) : Int) < (i : Int) := by
    constructor <;> omega
  have hj1b : (0 : Int) ≤ (((cellState a b i j).2 : Nat) : Int) ∧
      (((cellState a b i j).2 : Nat) : Int) < (j : Int) := by
    constructor <;> omega
  have hpred : ((a.length + b.length - 1 : Nat) : Int) ≤ ((a.length + b.length : Nat) : Int) := by
    omega
  clear hs hi1 hj1
  have hl := (cellState_ok a b i j hi hin hj (Nat.le_succ_of_le hjm)).1.len
  have hdalen := (rowState_ok a b i hi (Nat.le_succ_of_le hin)).2.1
  have hb := iter_read_bounds a b i j hi hin hj hjm
  have hbd := hb.1
  have hbi := hb.2.1
  have hbs := hb.2.2.1
  have hbt := hb.2.2.2.1
  clear hb
  unfold i1At j1At at hbt
  have hc := costAt_bounds a b i j
  unfold costAt at hc
  have hv := written_value32
    (atGet b.length (cellState a b i j).1 i (j + 1))
    (atGet b.length (cellState a b i j).1 (i + 1) j)
    (atGet b.length (cellState a b i j).1 i j)
    (atGet b.length (cellState a b i j).1
      ((rowState a b i).2.getD (b.getD (j - 1) 0).val 0) (cellState a b i j).2)
    (if a.getD (i - 1) 0 = b.getD (j - 1) 0 then 0 else 1)
    (i : Int) (j : Int) (((rowState a b i).2.getD (b.getD (j - 1) 0).val 0 : Nat) : Int)
    (((cellState a b i j).2 : Nat) : Int) ((a.length + b.length : Nat) : Int)
    ⟨hbd.1, le_trans hbd.2 hpred⟩ ⟨hbi.1, le_trans hbi.2 hpred⟩
    ⟨hbs.1, le_trans hbs.2 hpred⟩ hbt hc hi1b hj1b hij hN
  have sb := strGetC32_pred b j hj hjm bj
  have sa := strGetC32_pred a i hi hin bi
  have hdg : (rowState a b i).2[(b.getD (j - 1) 0).val]? =
      some ((rowState a b i).2.getD (b.getD (j - 1) 0).val 0) :=
    getD_eq_of_getElem? _ _ 0 (by rw [hdalen]; exact (b.getD (j - 1) 0).isLt)
  have ej1 := succ32_eq j bj1
  have ei1 := succ32_eq i bi1
  have g1 := atGetC32_eq a.length b.length (cellState a b i j).1 i (j + 1) h ci cj1 hl
  have g2 := atGetC32_eq a.length b.length (cellState a b i j).1 (i + 1) j h ci1 cj hl
  have g3 := atGetC32_eq a.length b.length (cellState a b i j).1 i j h ci cj hl
  have g4 := atGetC32_eq a.length b.length (cellState a b i j).1
    ((rowState a b i).2.getD (b.getD (j - 1) 0).val 0) (cellState a b i j).2 h ct cu hl
  have hset := fun v => atSetC32_eq a.length b.length (cellState a b i j).1 (i + 1) (j + 1) v h
    ci1 cj1 hl
  unfold innerStepC32 innerStep
  simp only [sb, sa, hdg, ej1, ei1, g1, g2, g3, g4, hv, hset, bind_some_eq]
  rfl

/-- Along the run and inside the size bound, iteration `i` of the outer loop
makes no out-of-range access and computes what the iteration computes. -/
theorem outerStepC32_eq (a b : List Byte) (i : Nat)
    (h : (a.length + 2) * (b.length + 2) ≤ 2147483647) (hi : 1 ≤ i) (hin : i ≤ a.length) :
    outerStepC32 a b (b.length : Int) (rowState a b i) i =
      some (outerStep a b b.length (rowState a b i) i) := by
  have hs := size_bound _ _ h
  have bi : i < 2147483648 := by omega
  clear hs
  have hdalen := (rowState_ok a b i hi (Nat.le_succ_of_le hin)).2.1
  have hloop := foldlM_range_eq (innerStepC32 a b (b.length : Int) i (rowState a b i).2)
    (innerStep a b b.length i (rowState a b i).2) (fun j st => st = cellState a b i j)
    b.length 1 ((rowState a b i).1, 0) rfl
    (by
      intro j st hj1 hj2 hst
      subst hst
      exact ⟨innerStepC32_eq a b i j h hi hin hj1
          (Nat.le_of_lt_succ (by rw [Nat.add_comm] at hj2; exact hj2)),
        (cellState_succ a b i j hj1).symm⟩)
  have sa := strGetC32_pred a i hi hin bi
  unfold outerStepC32 outerStep
  simp only [Int.toNat_ofNat, hloop, sa, bind_some_eq]
  rw [if_pos (by rw [hdalen]; exact (a.getD (i - 1) 0).isLt)]
  rfl

/-- The narrowing `static_cast<int>` keeps a size inside the bound. -/
theorem narrow_eq (a b : List Byte) (h : (a.length + 2) * (b.length + 2) ≤ 2147483647) :
    wrap32 (a.length : Int) = (a.length : Int) ∧ wrap32 (b.length : Int) = (b.length : Int) := by
  have hs := size_bound _ _ h
  have bn0 : (-2147483648 : Int) ≤ (a.length : Int) := by omega
  have bn1 : (a.length : Int) < 2147483648 := by omega
  have bm0 : (-2147483648 : Int) ≤ (b.length : Int) := by omega
  have bm1 : (b.length : Int) < 2147483648 := by omega
  exact ⟨wrap32_eq _ bn0 bn1, wrap32_eq _ bm0 bm1⟩

/-- Inside the size bound the checked program reaches its `return` statement,
in the state the run over the unbounded integers reaches. -/
theorem finalStateC32_eq (a b : List Byte) (h : (a.length + 2) * (b.length + 2) ≤ 2147483647) :
    finalStateC32 a b = some (finalState a b) := by
  obtain ⟨hn, hm⟩ := narrow_eq a b h
  have hloop := foldlM_range_eq (outerStepC32 a b (b.length : Int))
    (outerStep a b b.length) (fun i st => st = rowState a b i)
    a.length 1 (initTable a.length b.length, List.replicate 256 0) rfl
    (by
      intro i st hi1 hi2 hst
      subst hst
      exact ⟨outerStepC32_eq a b i h hi1
          (Nat.le_of_lt_succ (by rw [Nat.add_comm] at hi2; exact hi2)),
        (rowState_succ a b i hi1).symm⟩)
  have hinit := initTableC32_eq a.length b.length h
  unfold finalStateC32 finalState
  simp only [hn, hm, Int.toNat_ofNat, hinit, hloop, bind_some_eq]

/-- Inside the size bound every cell of the grid can be read at the `return`
statement, and holds what it holds in the run over the unbounded integers. -/
theorem cellAtReturnC32_eq (a b : List Byte) (h : (a.length + 2) * (b.length + 2) ≤ 2147483647)
    (r c : Nat) (hr : r ≤ a.length + 1) (hc : c ≤ b.length + 1) :
    cellAtReturnC32 a b (r : Int) (c : Int) = some (atGet b.length (finalTable a b) r c) := by
  obtain ⟨_, hm⟩ := narrow_eq a b h
  unfold cellAtReturnC32
  simp only [finalStateC32_eq a b h, hm, bind_some_eq]
  exact atGetC32_eq a.length b.length _ r c h hr hc (finalState_ok a b).len

/-- Inside the size bound the checked program returns, and returns what the
run over the unbounded integers returns. -/
theorem checked32_eq (a b : List Byte) (h : (a.length + 2) * (b.length + 2) ≤ 2147483647) :
    damerau_levenshtein_checked32 a b = some (damerau_levenshtein_true a b) := by
  have hs := size_bound _ _ h
  have bn : a.length + 1 < 2147483648 := by omega
  have bm : b.length + 1 < 2147483648 := by omega
  clear hs
  obtain ⟨hn, hm⟩ := narrow_eq a b h
  have en := succ32_eq a.length bn
  have em := succ32_eq b.length bm
  have hst := finalStateC32_eq a b h
  have hinit := initTableC32_eq a.length b.length h
  unfold finalStateC32 at hst
  simp only [hn, hm, hinit, bind_some_eq] at hst
  unfold damerau_levenshtein_checked32
  simp only [hn, hm, en, em, hinit, bind_some_eq, hst]
  exact atGetC32_eq a.length b.length _ (a.length + 1) (b.length + 1) h (le_refl _) (le_refl _)
    (finalState_ok a b).len

/-- The first initialisation loop fails at its first write when `at(1, 0)` is
outside the vector. -/
theorem initTableC32_row_fail (n m : Int) (hn : 0 ≤ n)
    (hbad : ¬ (0 ≤ flat32 m (add32 ((0 : Nat) : Int) 1) 0 ∧
      (flat32 m (add32 ((0 : Nat) : Int) 1) 0).toNat < (mul32 (add32 n 2) (add32 m 2)).toNat)) :
    initTableC32 n m = none := by
  obtain ⟨k, hk⟩ : ∃ k : Nat, (n + 1).toNat = k + 1 := ⟨n.toNat, by omega⟩
  unfold initTableC32 allocC32
  by_cases hs : 0 ≤ mul32 (add32 n 2) (add32 m 2)
  · rw [if_pos hs, bind_some_eq]
    unfold atSetC32
    by_cases h0 : 0 ≤ flat32 m 0 0 ∧
        (flat32 m 0 0).toNat < (List.replicate (mul32 (add32 n 2) (add32 m 2)).toNat (0 : Int)).length
    · rw [if_pos h0, bind_some_eq, hk, List.range'_succ, List.foldlM_cons]
      unfold initRowStepC32 atSetC32
      rw [List.length_set, List.length_replicate, if_neg hbad]
      rfl
    · rw [if_neg h0]
      rfl
  · rw [if_neg hs]
    rfl

/-- The initialisation names only rows `0 .. n + 1` and columns `0 .. m + 1`. -/
theorem initAccesses_in_grid (n m : Nat) :
    ∀ p, p ∈ initAccesses n m → p.1 ≤ n + 1 ∧ p.2 ≤ m + 1 := by
  intro p hp
  unfold initAccesses at hp
  simp only [List.mem_cons, List.mem_append, List.mem_flatMap, List.mem_range,
    List.not_mem_nil, or_false] at hp
  rcases hp with rfl | ⟨i, hi, rfl | rfl⟩ | ⟨j, hj, rfl | rfl⟩
  · exact ⟨Nat.zero_le _, Nat.zero_le _⟩
  · exact ⟨Nat.succ_le_succ (Nat.le_of_lt_succ hi), Nat.zero_le _⟩
  · exact ⟨Nat.succ_le_succ (Nat.le_of_lt_succ hi), Nat.le_add_left 1 m⟩
  · exact ⟨Nat.zero_le _, Nat.succ_le_succ (Nat.le_of_lt_succ hj)⟩
  · exact ⟨Nat.le_add_left 1 n, Nat.succ_le_succ (Nat.le_of_lt_succ hj)⟩

/-- Iteration `(i, j)` names only rows `0 .. n + 1` and columns `0 .. m + 1`. -/
theorem iterAccesses_in_grid (a b : List Byte) (i j : Nat) (hi : 1 ≤ i) (hin : i ≤ a.length)
    (hj : 1 ≤ j) (hjm : j ≤ b.length) :
    ∀ p, p ∈ iterAccesses a b i j → p.1 ≤ a.length + 1 ∧ p.2 ≤ b.length + 1 := by
  have hr := iter_reads a b i j hi hin hj hjm
  have hi1 := hr.2.2.2.1
  have hj1 := hr.2.2.2.2.1
  clear hr
  intro p hp
  unfold iterAccesses at hp
  simp only [List.mem_cons, List.not_mem_nil, or_false] at hp
  rcases hp with rfl | rfl | rfl | rfl | rfl
  · exact ⟨by omega, by omega⟩
  · exact ⟨by omega, by omega⟩
  · exact ⟨by omega, by omega⟩
  · exact ⟨by omega, by omega⟩
  · exact ⟨by omega, by omega⟩

/-! ## The program as compiled, outside the size bound -/

/-- A string of 2^32 bytes has its size narrowed to 0: against the empty string
the program works on a 4-cell table and returns `at(1, 1) = 0`. -/
theorem checked32_pow32_nil :
    damerau_levenshtein_checked32 (List.replicate 4294967296 0) [] = some 0 := by
  unfold damerau_levenshtein_checked32
  simp only [List.length_replicate, List.length_nil]
  decide

/-- A string of 2^31 bytes has its size narrowed to -2^31: against the empty
string the size of the vector wraps to 4, no loop runs, and the index of the
returned cell `at(-2^31 + 1, 1)` wraps to 3, where the column loop stored 0. -/
theorem checked32_pow31_nil :
    damerau_levenshtein_checked32 (List.replicate 2147483648 0) [] = some 0 := by
  unfold damerau_levenshtein_checked32
  simp only [List.length_replicate, List.length_nil]
  decide

/-- With the arguments in the other order the first loop writes `at(1, 0)` at
the negative index `-2^31 + 2`. -/
theorem checked32_nil_pow31 :
    damerau_levenshtein_checked32 [] (List.replicate 2147483648 0) = none := by
  unfold damerau_levenshtein_checked32
  simp only [List.length_replicate, List.length_nil]
  decide

/-- With 65534 and 65535 bytes the size `65536 * 65537` of the vector wraps to
65536, and the first write of the first loop, `at(1, 0)`, has index 65537. -/
theorem checked32_65534_65535 :
    damerau_levenshtein_checked32 (List.replicate 65534 0) (List.replicate 65535 0) = none := by
  unfold damerau_levenshtein_checked32
  simp only [List.length_replicate]
  rw [initTableC32_row_fail _ _ (by decide) (by decide)]
  rfl

/-- With 46339 bytes each the size `46341 * 46341` of the vector wraps to a
negative `int`, and the allocation fails. -/
theorem checked32_46339 (x y : Byte) :
    damerau_levenshtein_checked32 (List.replicate 46339 x) (List.replicate 46339 y) = none := by
  unfold damerau_levenshtein_checked32
  simp only [List.length_replicate]
  have h : initTableC32 (wrap32 ((46339 : Nat) : Int)) (wrap32 ((46339 : Nat) : Int)) = none := by
    decide
  rw [h]
  rfl

/-- A string of 2^32 - 1 bytes has its size narrowed to -1: as second argument
it gives a 2-cell vector, and the first loop writes `at(1, 1)` at index 2. -/
theorem checked32_nil_pow32m1 :
    damerau_levenshtein_checked32 [] (List.replicate 4294967295 0) = none := by
  unfold damerau_levenshtein_checked32
  simp only [List.length_replicate, List.length_nil]
  decide

/-! ## Properties of the run over the unbounded integers -/

/-- Over the unbounded integers, swapping two adjacent distinct symbols `c`, `d`
costs exactly 1, whatever stands before (`x`) and after (`y`) them. -/
theorem dl_adjacent_swap (x y : List Byte) (c d : Byte) (hcd : c ≠ d) :
    damerau_levenshtein_true (x ++ [c, d] ++ y) (x ++ [d, c] ++ y) = 1 := by
  obtain ⟨k, h1, h2⟩ := dl_opt (x ++ [c, d] ++ y) (x ++ [d, c] ++ y)
  have hal : Al (x ++ [c, d] ++ y) (x ++ [d, c] ++ y) 1 := by
    have h3 : Al ([c, d] ++ y) ([d, c] ++ y) 1 :=
      (Al.trans c d [] [] (Al.refl y)).cast (by simp)
    have h4 := (Al.refl x).append h3
    simp only [List.append_assoc]
    exact h4.cast (by omega)
  have hle : k ≤ 1 := h2.2 1 hal
  have hne : k ≠ 0 := by
    intro hk
    have e := h2.1.eq_of_zero hk
    simp only [List.append_assoc, List.append_cancel_left_eq, List.cons_append,
      List.nil_append, List.cons.injEq] at e
    exact hcd e.1
  have hk1 : k = 1 := by omega
  rw [h1, hk1]
  rfl

/-- Over the unbounded integers the result does not depend on the order of the
two arguments. -/
theorem dl_symm (a b : List Byte) :
    damerau_levenshtein_true a b = damerau_levenshtein_true b a := by
  obtain ⟨k, h1, h2⟩ := dl_opt a b
  obtain ⟨k1, h3, h4⟩ := dl_opt b a
  rw [h1, h3, h2.swap.unique h4]

/-- Over the unbounded integers the result is 0 exactly when the two sequences
are equal. -/
theorem dl_eq_zero_iff (a b : List Byte) :
    damerau_levenshtein_true a b = 0 ↔ a = b := by
  obtain ⟨k, h1, h2⟩ := dl_opt a b
  rw [h1]
  constructor
  · intro hk
    exact h2.1.eq_of_zero (by omega)
  · intro e
    subst e
    have := h2.2 0 (Al.refl a)
    omega

/-- Over the unbounded integers the distance to or from the empty sequence is
the length. -/
theorem dl_empty (a : List Byte) :
    damerau_levenshtein_true a [] = (a.length : Int) ∧
      damerau_levenshtein_true [] a = (a.length : Int) := by
  obtain ⟨k, h1, h2⟩ := dl_opt a []
  obtain ⟨k1, h3, h4⟩ := dl_opt [] a
  rw [h1, h3, h2.unique (Opt.nil_right a), h4.unique (Opt.nil_left a)]
  exact ⟨rfl, rfl⟩

/-- Over the unbounded integers the result is at most the length of the longer
sequence. -/
theorem dl_le_max (a b : List Byte) :
    damerau_levenshtein_true a b ≤ ((max a.length b.length : Nat) : Int) := by
  obtain ⟨k, h1, h2⟩ := dl_opt a b
  rw [h1]
  exact Int.ofNat_le.mpr h2.le_max

/-- Over the unbounded integers the result is at least the absolute difference
of the two lengths, and so never negative. -/
theorem dl_ge_length_diff (a b : List Byte) :
    |(a.length : Int) - (b.length : Int)| ≤ damerau_levenshtein_true a b ∧
      0 ≤ damerau_levenshtein_true a b := by
  obtain ⟨k, h1, h2⟩ := dl_opt a b
  have h3 := h2.1.length_le
  rw [h1]
  constructor
  · rw [abs_le]
    omega
  · omega

/-- Over the unbounded integers every non-sentinel cell `at(i + 1, j + 1)` is at
most `n + m` on return, and reaches `n + m` only in the corner cell
`(i, j) = (n, m)` of a call with `n = 0` or `m = 0`. -/
theorem sentinel_bound (a b : List Byte) (i j : Nat) (hi : i ≤ a.length) (hj : j ≤ b.length) :
    atGet b.length (finalTable a b) (i + 1) (j + 1) ≤ (a.length : Int) + (b.length : Int) ∧
      (atGet b.length (finalTable a b) (i + 1) (j + 1) = (a.length : Int) + (b.length : Int) ↔
        (a.length = 0 ∨ b.length = 0) ∧ i = a.length ∧ j = b.length) := by
  obtain ⟨k, h1, h2⟩ := finalTable_cell a b i j hi hj
  have h3 := h2.le_max
  rw [List.length_take, List.length_take, min_eq_left hi, min_eq_left hj] at h3
  rw [h1]
  refine ⟨by omega, ?_, ?_⟩
  · intro hk
    omega
  · rintro ⟨h0, e1, e2⟩
    subst e1; subst e2
    rw [List.take_length, List.take_length] at h2
    rcases h0 with h0 | h0
    · have e : a = [] := List.length_eq_zero.mp h0
      rw [e] at h2 ⊢
      rw [h2.unique (Opt.nil_left b)]
      simp
    · have e : b = [] := List.length_eq_zero.mp h0
      rw [e] at h2 ⊢
      rw [h2.unique (Opt.nil_right a)]
      simp

/-- Over the unbounded integers the cell `at(i + 1, j + 1)` holds on return the
result of a separate run on the prefixes `a[0..i)` and `b[0..j)`. -/
theorem cell_eq_call_on_prefixes (a b : List Byte) (i j : Nat)
    (hi : i ≤ a.length) (hj : j ≤ b.length) :
    atGet b.length (finalTable a b) (i + 1) (j + 1) =
      damerau_levenshtein_true (a.take i) (b.take j) := by
  obtain ⟨k, h1, h2⟩ := finalTable_cell a b i j hi hj
  obtain ⟨k1, h3, h4⟩ := dl_opt (a.take i) (b.take j)
  rw [h1, h3, h2.unique h4]

/-- Over the unbounded integers, when no symbol occurs in both sequences the
result is the length of the longer one. -/
theorem dl_disjoint (a b : List Byte) (hd : ∀ x, x ∈ a → x ∉ b) :
    damerau_levenshtein_true a b = ((max a.length b.length : Nat) : Int) := by
  obtain ⟨k, h1, h2⟩ := dl_opt a b
  have h3 := h2.le_max
  have h4 := h2.1.max_le_of_disjoint hd
  rw [h1, le_antisymm h3 h4]

/-- Over the unbounded integers the result obeys the triangle inequality. -/
theorem dl_triangle (a b c : List Byte) :
    damerau_levenshtein_true a c ≤
      damerau_levenshtein_true a b + damerau_levenshtein_true b c := by
  obtain ⟨k1, h1, o1⟩ := dl_opt a b
  obtain ⟨k2, h2, o2⟩ := dl_opt b c
  obtain ⟨k3, h3, o3⟩ := dl_opt a c
  have h := Opt.triangle o1 o2 o3
  rw [h1, h2, h3]
  omega

/-! ## The contract of `damerau_levenshtein_true` -/

/-- C1: the value returned for `a` and `b` is the least number `k` of unit-cost
edits (insert, delete, substitute, swap two adjacent symbols), applied one
after another without restriction, that turn `a` into `b`. -/
theorem dl_is_least_edit_count (a b : List Byte) :
    ∃ k : Nat, damerau_levenshtein_true a b = (k : Int) ∧
      IsLeast {j : Nat | EditSeq a b j} k := by
  obtain ⟨k, h1, h2⟩ := dl_opt a b
  exact ⟨k, h1, h2.isLeast_editSeq⟩

/-- C2: the program is not the optimal-string-alignment distance: on `"ca"`,
`"abc"` it returns 2, the restricted recurrence gives 3, so some input gets a
strictly smaller value. -/
theorem dl_lt_osa :
    damerau_levenshtein_true (bytes "ca") (bytes "abc") = 2 ∧
      osa_distance (bytes "ca") (bytes "abc") = 3 ∧
      ∃ a b : List Byte, damerau_levenshtein_true a b < osa_distance a b := by
  have h1 : damerau_levenshtein_true (bytes "ca") (bytes "abc") = 2 := by decide
  have h2 : osa_distance (bytes "ca") (bytes "abc") = 3 := by decide
  refine ⟨h1, h2, bytes "ca", bytes "abc", ?_⟩
  rw [h1, h2]
  decide

set_option maxRecDepth 1000000 in
/-- C9: every pair of the self-test table yields its expected value, so
`quick_unit_tests` reaches its `[OK]` line. -/
theorem quick_unit_tests_pass :
    quick_unit_tests = true ∧
      damerau_levenshtein_true (bytes "") (bytes "") = 0 ∧
      damerau_levenshtein_true (bytes "a") (bytes "") = 1 ∧
      damerau_levenshtein_true (bytes "") (bytes "abc") = 3 ∧
      damerau_levenshtein_true (bytes "abc") (bytes "abc") = 0 ∧
      damerau_levenshtein_true (bytes "ca") (bytes "ac") = 1 ∧
      damerau_levenshtein_true (bytes "abcd") (bytes "abdc") = 1 ∧
      damerau_levenshtein_true (bytes "kitten") (bytes "sitting") = 3 := by
  refine ⟨?_, ?_, ?_, ?_, ?_, ?_, ?_, ?_⟩ <;> decide

/-- C10, as stated, fails: for `a = "a"` and `b = ""` the sentinel is
`INF = 1 + 0` and the cell `at(2, 1)` holds 1 on return. -/
theorem sentinel_not_strict :
    ¬ (∀ i j : Nat, i ≤ (bytes "a").length → j ≤ (bytes "").length →
      atGet (bytes "").length (finalTable (bytes "a") (bytes "")) (i + 1) (j + 1)
        < ((bytes "a").length : Int) + ((bytes "").length : Int)) := by
  intro h
  have h1 := h 1 0 (by decide) (by decide)
  revert h1
  decide

/-- C3, as stated, fails: with `x` empty, `c = 1`, `d = 2` and `y` of 2^32 - 2
bytes, both strings have 2^32 bytes, `static_cast<int>` narrows both sizes to
0, and the program returns `at(1, 1) = 0` instead of 1. -/
theorem adjacent_swap_oversize :
    (1 : Byte) ≠ 2 ∧
      damerau_levenshtein_checked32 ([] ++ [1, 2] ++ List.replicate 4294967294 0)
        ([] ++ [2, 1] ++ List.replicate 4294967294 0) = some 0 ∧
      damerau_levenshtein_checked32 ([] ++ [1, 2] ++ List.replicate 4294967294 0)
        ([] ++ [2, 1] ++ List.replicate 4294967294 0) ≠ some 1 := by
  have h : damerau_levenshtein_checked32 ([] ++ [1, 2] ++ List.replicate 4294967294 0)
      ([] ++ [2, 1] ++ List.replicate 4294967294 0) = some 0 := by
    unfold damerau_levenshtein_checked32
    simp only [List.length_replicate, List.length_nil, List.length_append, List.length_cons]
    decide
  refine ⟨by decide, h, ?_⟩
  rw [h]
  decide

/-- C3, amended: when the table fits a 32-bit index,
`(n + 2) * (m + 2) ≤ 2^31 - 1` for the two sizes, the program as compiled
returns exactly 1 for `x ++ [c, d] ++ y` and `x ++ [d, c] ++ y` with `c ≠ d`. -/
theorem adjacent_swap_bounded (x y : List Byte) (c d : Byte) (hcd : c ≠ d)
    (hsize : ((x ++ [c, d] ++ y).length + 2) * ((x ++ [d, c] ++ y).length + 2) ≤ 2147483647) :
    damerau_levenshtein_checked32 (x ++ [c, d] ++ y) (x ++ [d, c] ++ y) = some 1 := by
  rw [checked32_eq _ _ hsize, dl_adjacent_swap x y c d hcd]

/-- C3 amended, at the source's test pair `"abcd"`, `"abdc"`. -/
theorem adjacent_swap_bounded_witness :
    (99 : Byte) ≠ 100 ∧
      ((bytes "ab" ++ [99, 100] ++ []).length + 2) * ((bytes "ab" ++ [100, 99] ++ []).length + 2)
        ≤ 2147483647 ∧
      damerau_levenshtein_checked32 (bytes "ab" ++ [99, 100] ++ []) (bytes "ab" ++ [100, 99] ++ []) =
        some 1 :=
  ⟨by decide, by decide, adjacent_swap_bounded (bytes "ab") [] 99 100 (by decide) (by decide)⟩

/-- C4, as stated, fails: for `a` of 2^31 bytes and `b` empty the program
returns 0, and with the arguments exchanged it writes `at(1, 0)` at the
negative index `-2^31 + 2` and returns nothing. -/
theorem symm_oversize :
    damerau_levenshtein_checked32 (List.replicate 2147483648 0) [] = some 0 ∧
      damerau_levenshtein_checked32 [] (List.replicate 2147483648 0) = none ∧
      damerau_levenshtein_checked32 (List.replicate 2147483648 0) [] ≠
        damerau_levenshtein_checked32 [] (List.replicate 2147483648 0) := by
  refine ⟨checked32_pow31_nil, checked32_nil_pow31, ?_⟩
  rw [checked32_pow31_nil, checked32_nil_pow31]
  decide

/-- C4, amended: when the table fits a 32-bit index,
`(n + 2) * (m + 2) ≤ 2^31 - 1`, the program as compiled returns the same
number for `(a, b)` and for `(b, a)`. -/
theorem symm_bounded (a b : List Byte)
    (hsize : (a.length + 2) * (b.length + 2) ≤ 2147483647) :
    ∃ v : Int, damerau_levenshtein_checked32 a b = some v ∧
      damerau_levenshtein_checked32 b a = some v := by
  refine ⟨damerau_levenshtein_true a b, checked32_eq a b hsize, ?_⟩
  rw [checked32_eq b a (by rw [Nat.mul_comm]; exact hsize), dl_symm b a]

set_option maxRecDepth 100000 in
/-- C4 amended, at `a = "ca"`, `b = "abc"`. -/
theorem symm_bounded_witness :
    ((bytes "ca").length + 2) * ((bytes "abc").length + 2) ≤ 2147483647 ∧
      ∃ v : Int, damerau_levenshtein_checked32 (bytes "ca") (bytes "abc") = some v ∧
        damerau_levenshtein_checked32 (bytes "abc") (bytes "ca") = some v :=
  ⟨by decide, symm_bounded (bytes "ca") (bytes "abc") (by decide)⟩

/-- C5, as stated, fails: for `a` of 2^32 bytes and `b` empty the sizes are
narrowed to 0 and 0 and the program returns 0, although `a ≠ b`. -/
theorem eq_zero_iff_oversize :
    damerau_levenshtein_checked32 (List.replicate 4294967296 0) [] = some 0 ∧
      List.replicate 4294967296 (0 : Byte) ≠ [] ∧
      ¬ (damerau_levenshtein_checked32 (List.replicate 4294967296 0) [] = some 0 ↔
        List.replicate 4294967296 (0 : Byte) = []) := by
  have hne : List.replicate 4294967296 (0 : Byte) ≠ [] := by
    intro h
    have h1 := congrArg List.length h
    rw [List.length_replicate] at h1
    exact absurd h1 (by decide)
  exact ⟨checked32_pow32_nil, hne, fun h => hne (h.mp checked32_pow32_nil)⟩

/-- C5, amended: when the table fits a 32-bit index,
`(n + 2) * (m + 2) ≤ 2^31 - 1`, the program as compiled returns a number, and
that number is 0 exactly when `a = b`. -/
theorem eq_zero_iff_bounded (a b : List Byte)
    (hsize : (a.length + 2) * (b.length + 2) ≤ 2147483647) :
    ∃ v : Int, damerau_levenshtein_checked32 a b = some v ∧ (v = 0 ↔ a = b) :=
  ⟨damerau_levenshtein_true a b, checked32_eq a b hsize, dl_eq_zero_iff a b⟩

set_option maxRecDepth 100000 in
/-- C5 amended, at the source's test pair `"abc"`, `"abc"`. -/
theorem eq_zero_iff_bounded_witness :
    ((bytes "abc").length + 2) * ((bytes "abc").length + 2) ≤ 2147483647 ∧
      ∃ v : Int, damerau_levenshtein_checked32 (bytes "abc") (bytes "abc") = some v ∧
        (v = 0 ↔ bytes "abc" = bytes "abc") :=
  ⟨by decide, eq_zero_iff_bounded (bytes "abc") (bytes "abc") (by decide)⟩

/-- C6, as stated, fails: for `a` of 2^31 bytes the program returns 0 for
`(a, "")`, not the length of `a`. -/
theorem empty_oversize :
    damerau_levenshtein_checked32 (List.replicate 2147483648 0) [] ≠
      some (((List.replicate 2147483648 (0 : Byte)).length : Nat) : Int) := by
  rw [checked32_pow31_nil, List.length_replicate]
  decide

/-- C6, amended: for `a` of at most 2^30 - 3 bytes, so that the table of `a`
and the empty sequence fits a 32-bit index, `(n + 2) * 2 ≤ 2^31 - 1`, the
program as compiled returns the length of `a` for `(a, "")` and for `("", a)`. -/
theorem empty_bounded (a : List Byte) (hsize : (a.length + 2) * 2 ≤ 2147483647) :
    damerau_levenshtein_checked32 a [] = some (a.length : Int) ∧
      damerau_levenshtein_checked32 [] a = some (a.length : Int) := by
  have h1 : (a.length + 2) * (([] : List Byte).length + 2) ≤ 2147483647 := hsize
  have h2 : (([] : List Byte).length + 2) * (a.length + 2) ≤ 2147483647 := by
    rw [Nat.mul_comm]; exact hsize
  rw [checked32_eq a [] h1, checked32_eq [] a h2, (dl_empty a).1, (dl_empty a).2]
  exact ⟨rfl, rfl⟩

set_option maxRecDepth 100000 in
/-- C6 amended, at the source's test string `"abc"`. -/
theorem empty_bounded_witness :
    ((bytes "abc").length + 2) * 2 ≤ 2147483647 ∧
      damerau_levenshtein_checked32 (bytes "abc") [] = some ((bytes "abc").length : Int) ∧
      damerau_levenshtein_checked32 [] (bytes "abc") = some ((bytes "abc").length : Int) :=
  ⟨by decide, empty_bounded (bytes "abc") (by decide)⟩

/-- C7, as stated, fails: for 65534 and 65535 bytes the size of the vector
wraps to 65536 cells, the write `at(1, 0)` has index 65537, and the program
returns no number at all, so none that is at most 65535. -/
theorem le_max_oversize :
    ¬ ∃ v : Int,
      damerau_levenshtein_checked32 (List.replicate 65534 0) (List.replicate 65535 0) = some v ∧
        v ≤ ((max (List.replicate 65534 (0 : Byte)).length
          (List.replicate 65535 (0 : Byte)).length : Nat) : Int) := by
  rintro ⟨v, hv, _⟩
  rw [checked32_65534_65535] at hv
  cases hv

/-- C7, amended: when the table fits a 32-bit index,
`(n + 2) * (m + 2) ≤ 2^31 - 1`, the program as compiled returns a number that
is at most `max(n, m)`. -/
theorem le_max_bounded (a b : List Byte)
    (hsize : (a.length + 2) * (b.length + 2) ≤ 2147483647) :
    ∃ v : Int, damerau_levenshtein_checked32 a b = some v ∧
      v ≤ ((max a.length b.length : Nat) : Int) :=
  ⟨damerau_levenshtein_true a b, checked32_eq a b hsize, dl_le_max a b⟩

set_option maxRecDepth 100000 in
/-- C7 amended, at `a = "kitten"`, `b = "sitting"`. -/
theorem le_max_bounded_witness :
    ((bytes "kitten").length + 2) * ((bytes "sitting").length + 2) ≤ 2147483647 ∧
      ∃ v : Int, damerau_levenshtein_checked32 (bytes "kitten") (bytes "sitting") = some v ∧
        v ≤ ((max (bytes "kitten").length (bytes "sitting").length : Nat) : Int) :=
  ⟨by decide, le_max_bounded (bytes "kitten") (bytes "sitting") (by decide)⟩

/-- C8, as stated, fails: for `a` of 2^31 bytes and `b` empty the program
returns 0, which is below the difference 2^31 of the two lengths. -/
theorem ge_length_diff_oversize :
    ¬ ∃ v : Int, damerau_levenshtein_checked32 (List.replicate 2147483648 0) [] = some v ∧
      |((List.replicate 2147483648 (0 : Byte)).length : Int) -
        ((([] : List Byte).length : Nat) : Int)| ≤ v := by
  rintro ⟨v, hv, h⟩
  rw [checked32_pow31_nil] at hv
  cases hv
  rw [List.length_replicate, List.length_nil] at h
  revert h
  decide

/-- C8, amended: when the table fits a 32-bit index,
`(n + 2) * (m + 2) ≤ 2^31 - 1`, the program as compiled returns a number that
is at least `|n - m|`, and so not negative. -/
theorem ge_length_diff_bounded (a b : List Byte)
    (hsize : (a.length + 2) * (b.length + 2) ≤ 2147483647) :
    ∃ v : Int, damerau_levenshtein_checked32 a b = some v ∧
      |(a.length : Int) - (b.length : Int)| ≤ v ∧ 0 ≤ v :=
  ⟨damerau_levenshtein_true a b, checked32_eq a b hsize, dl_ge_length_diff a b⟩

set_option maxRecDepth 100000 in
/-- C8 amended, at `a = ""`, `b = "abc"`. -/
theorem ge_length_diff_bounded_witness :
    ((bytes "").length + 2) * ((bytes "abc").length + 2) ≤ 2147483647 ∧
      ∃ v : Int, damerau_levenshtein_checked32 (bytes "") (bytes "abc") = some v ∧
        |((bytes "").length : Int) - ((bytes "abc").length : Int)| ≤ v ∧ 0 ≤ v :=
  ⟨by decide, ge_length_diff_bounded (bytes "") (bytes "abc") (by decide)⟩

/-- C10, amended: when the table fits a 32-bit index,
`(n + 2) * (m + 2) ≤ 2^31 - 1`, the sentinel the program computes is
`INF = n + m`, and on return every non-sentinel cell `at(i + 1, j + 1)` of the
program as compiled holds a value that is at most `INF` and that reaches `INF`
only in the corner cell `(i, j) = (n, m)` of a call with `n = 0` or `m = 0`; so
it is strictly below `INF` in every cell as soon as neither sequence is empty. -/
theorem sentinel_bound_checked32 (a b : List Byte)
    (hsize : (a.length + 2) * (b.length + 2) ≤ 2147483647)
    (i j : Nat) (hi : i ≤ a.length) (hj : j ≤ b.length) :
    add32 (wrap32 (a.length : Int)) (wrap32 (b.length : Int)) =
        (a.length : Int) + (b.length : Int) ∧
      ∃ v : Int, cellAtReturnC32 a b ((i + 1 : Nat) : Int) ((j + 1 : Nat) : Int) = some v ∧
        v ≤ (a.length : Int) + (b.length : Int) ∧
        (v = (a.length : Int) + (b.length : Int) ↔
          (a.length = 0 ∨ b.length = 0) ∧ i = a.length ∧ j = b.length) := by
  have hs := size_bound _ _ hsize
  have b0 : (-2147483648 : Int) ≤ (a.length : Int) + (b.length : Int) := by omega
  have b1 : (a.length : Int) + (b.length : Int) < 2147483648 := by omega
  have hr : i + 1 ≤ a.length + 1 := by omega
  have hc : j + 1 ≤ b.length + 1 := by omega
  clear hs
  obtain ⟨hn, hm⟩ := narrow_eq a b hsize
  refine ⟨by rw [hn, hm]; exact add32_eq _ _ b0 b1, _,
    cellAtReturnC32_eq a b hsize (i + 1) (j + 1) hr hc, ?_⟩
  exact sentinel_bound a b i j hi hj

set_option maxRecDepth 100000 in
/-- C10 amended, at `a = "ca"`, `b = "abc"`, cell `at(3, 4)`. -/
theorem sentinel_bound_checked32_witness :
    ((bytes "ca").length + 2) * ((bytes "abc").length + 2) ≤ 2147483647 ∧
      2 ≤ (bytes "ca").length ∧ 3 ≤ (bytes "abc").length ∧
      ∃ v : Int, cellAtReturnC32 (bytes "ca") (bytes "abc") ((2 + 1 : Nat) : Int)
          ((3 + 1 : Nat) : Int) = some v ∧
        v ≤ ((bytes "ca").length : Int) + ((bytes "abc").length : Int) ∧
        (v = ((bytes "ca").length : Int) + ((bytes "abc").length : Int) ↔
          ((bytes "ca").length = 0 ∨ (bytes "abc").length = 0) ∧
            2 = (bytes "ca").length ∧ 3 = (bytes "abc").length) :=
  ⟨by decide, by decide, by decide,
    (sentinel_bound_checked32 (bytes "ca") (bytes "abc") (by decide) 2 3
      (by decide) (by decide)).2⟩

/-- C11: at every iteration `(i, j)` of the inner loop, the value `i1 = da[bj]`
read there is the greatest `k` with `1 ≤ k < i` and `a[k-1] = b[j-1]`, or 0 when
there is none, and `j1 = db` is the greatest `l` with `1 ≤ l < j` and
`b[l-1] = a[i-1]`, or 0 when there is none. -/
theorem last_occurrence_invariant (a b : List Byte) (i j : Nat) (hi : 1 ≤ i)
    (hin : i ≤ a.length) (hj : 1 ≤ j) (hjm : j ≤ b.length) :
    GreatestBefore a (b.getD (j - 1) 0) i (i1At a b i j) ∧
      GreatestBefore b (a.getD (i - 1) 0) j (j1At a b i j) := by
  obtain ⟨_, hdb⟩ := cellState_ok a b i j hi hin hj (by omega)
  obtain ⟨_, _, hda⟩ := rowState_ok a b i hi (by omega)
  have h1 := (hda (b.getD (j - 1) 0)).greatestBefore (by omega)
  have h2 := hdb.greatestBefore (by omega)
  have e1 : i - 1 + 1 = i := by omega
  have e2 : j - 1 + 1 = j := by omega
  rw [e1] at h1
  rw [e2] at h2
  exact ⟨h1, h2⟩

set_option maxRecDepth 100000 in
/-- C11 at `a = "abca"`, `b = "caab"`, iteration `(4, 3)`: `i1 = 1`, `j1 = 2`. -/
theorem last_occurrence_invariant_witness :
    (i1At (bytes "abca") (bytes "caab") 4 3 = 1 ∧ j1At (bytes "abca") (bytes "caab") 4 3 = 2) ∧
      GreatestBefore (bytes "abca") ((bytes "caab").getD (3 - 1) 0) 4
        (i1At (bytes "abca") (bytes "caab") 4 3) ∧
      GreatestBefore (bytes "caab") ((bytes "abca").getD (4 - 1) 0) 3
        (j1At (bytes "abca") (bytes "caab") 4 3) :=
  ⟨by decide, last_occurrence_invariant (bytes "abca") (bytes "caab") 4 3
    (by decide) (by decide) (by decide) (by decide)⟩

/-- C12: at every iteration `(i, j)` with `i1 = 0` or `j1 = 0` the candidate
`transp` is strictly greater than `min(del, ins, sub)`, so the cell
`at(i + 1, j + 1)` receives `min(del, ins, sub)`. -/
theorem transp_loses_without_partner (a b : List Byte) (i j : Nat) (hi : 1 ≤ i)
    (hin : i ≤ a.length) (hj : 1 ≤ j) (hjm : j ≤ b.length)
    (h0 : i1At a b i j = 0 ∨ j1At a b i j = 0) :
    min (min (delAt a b i j) (insAt a b i j)) (subAt a b i j) < transpAt a b i j ∧
      atGet b.length (cellState a b i (j + 1)).1 (i + 1) (j + 1) =
        min (min (delAt a b i j) (insAt a b i j)) (subAt a b i j) := by
  have hp : ¬ (0 < i1At a b i j ∧ 0 < j1At a b i j) := by omega
  have hr := iter_reads a b i j hi hin hj hjm
  obtain ⟨ks, hks, hksle⟩ := hr.2.2.1
  have hi1 := hr.2.2.2.1
  have hj1 := hr.2.2.2.2.1
  have hT := hr.2.2.2.2.2.2 hp
  clear hr
  have hc := costAt_bounds a b i j
  have hlt : min (min (delAt a b i j) (insAt a b i j)) (subAt a b i j) < transpAt a b i j := by
    refine lt_of_le_of_lt (min_le_right _ _) ?_
    unfold subAt transpAt
    rw [hks, hT]
    omega
  refine ⟨hlt, ?_⟩
  rw [written_cell a b i j hi hin hj hjm]
  exact min_eq_left (le_of_lt hlt)

set_option maxRecDepth 100000 in
/-- C12 at `a = "ca"`, `b = "abc"`, iteration `(1, 3)`, where `i1 = 0`. -/
theorem transp_loses_without_partner_witness :
    (i1At (bytes "ca") (bytes "abc") 1 3 = 0 ∨ j1At (bytes "ca") (bytes "abc") 1 3 = 0) ∧
      min (min (delAt (bytes "ca") (bytes "abc") 1 3) (insAt (bytes "ca") (bytes "abc") 1 3))
          (subAt (bytes "ca") (bytes "abc") 1 3) < transpAt (bytes "ca") (bytes "abc") 1 3 ∧
      atGet (bytes "abc").length (cellState (bytes "ca") (bytes "abc") 1 (3 + 1)).1 (1 + 1) (3 + 1) =
        min (min (delAt (bytes "ca") (bytes "abc") 1 3) (insAt (bytes "ca") (bytes "abc") 1 3))
          (subAt (bytes "ca") (bytes "abc") 1 3) :=
  ⟨by decide, transp_loses_without_partner (bytes "ca") (bytes "abc") 1 3
    (by decide) (by decide) (by decide) (by decide) (by decide)⟩

/-- C14: when the table fits a 32-bit index, `(n + 2) * (m + 2) ≤ 2^31 - 1`,
every entry of the table lies in `[0, n + m]`, at every iteration the four
candidates lie in `[0, 2 * (n + m)]` and the value written in `[0, n + m]`,
`2 * (n + m)` is below `2^31`, and the program run in wrapping 32-bit `int`
returns what it returns over the unbounded integers. -/
theorem no_wraparound (a b : List Byte)
    (hsize : (a.length + 2) * (b.length + 2) ≤ 2147483647) :
    (∀ x, x ∈ finalTable a b → 0 ≤ x ∧ x ≤ (a.length : Int) + (b.length : Int)) ∧
      (∀ i j : Nat, 1 ≤ i → i ≤ a.length → 1 ≤ j → j ≤ b.length →
        (0 ≤ delAt a b i j ∧ delAt a b i j ≤ 2 * ((a.length : Int) + (b.length : Int))) ∧
        (0 ≤ insAt a b i j ∧ insAt a b i j ≤ 2 * ((a.length : Int) + (b.length : Int))) ∧
        (0 ≤ subAt a b i j ∧ subAt a b i j ≤ 2 * ((a.length : Int) + (b.length : Int))) ∧
        (0 ≤ transpAt a b i j ∧
          transpAt a b i j ≤ 2 * ((a.length : Int) + (b.length : Int))) ∧
        (0 ≤ min (min (min (delAt a b i j) (insAt a b i j)) (subAt a b i j)) (transpAt a b i j) ∧
          min (min (min (delAt a b i j) (insAt a b i j)) (subAt a b i j)) (transpAt a b i j) ≤
            (a.length : Int) + (b.length : Int))) ∧
      2 * (a.length + b.length) + 4 ≤ 2147483647 ∧
      damerau_levenshtein_true32 a b = damerau_levenshtein_true a b :=
  ⟨finalTable_bounds a b, fun i j hi hin hj hjm => candidate_bounds a b i j hi hin hj hjm,
    size_bound _ _ hsize, dl32_eq a b hsize⟩

/-- C14 at `a = "ca"`, `b = "abc"`. -/
theorem no_wraparound_witness :
    ((bytes "ca").length + 2) * ((bytes "abc").length + 2) ≤ 2147483647 ∧
      damerau_levenshtein_true32 (bytes "ca") (bytes "abc") =
        damerau_levenshtein_true (bytes "ca") (bytes "abc") :=
  ⟨by decide, (no_wraparound (bytes "ca") (bytes "abc") (by decide)).2.2.2⟩

/-- C13, as stated, fails: for `n = 65534` and `m = 65535` the size
`(n + 2) * (m + 2)` of the vector, computed in `int`, is 65536, the first write
of the first loop, `at(1, 0)`, has flat index 65537, and the program as
compiled makes an out-of-range access instead of returning a number. -/
theorem index_safety_oversize :
    mul32 (add32 (wrap32 ((List.replicate 65534 (0 : Byte)).length : Int)) 2)
        (add32 (wrap32 ((List.replicate 65535 (0 : Byte)).length : Int)) 2) = 65536 ∧
      flat32 (wrap32 ((List.replicate 65535 (0 : Byte)).length : Int)) 1 0 = 65537 ∧
      damerau_levenshtein_checked32 (List.replicate 65534 0) (List.replicate 65535 0) = none := by
  refine ⟨?_, ?_, checked32_65534_65535⟩
  · rw [List.length_replicate, List.length_replicate]
    decide
  · rw [List.length_replicate]
    decide

/-- C13, amended: when the table fits a 32-bit index,
`(n + 2) * (m + 2) ≤ 2^31 - 1`, the program as compiled (sizes narrowed to
`int`, size of the vector and flat indices computed in `int`, every access to
the vector, to `da` and to the two strings checked) makes no out-of-range
access and returns its number; the vector has `(n + 2) * (m + 2)` cells; every
table access `at(r, c)` of the initialisation, of an iteration `(i, j)` and of
the `return` statement has `r ≤ n + 1` and `c ≤ m + 1`; for such `r` and `c`
the flat index computed in `int` is `r * (m + 2) + c` and is below
`(n + 2) * (m + 2)`; at every iteration `(i, j)` the transposition lookup has
`i1 < i` and `j1 < j`; and every symbol is an index below the length 256 of
`da`. -/
theorem index_safety_bounded (a b : List Byte)
    (hsize : (a.length + 2) * (b.length + 2) ≤ 2147483647) :
    damerau_levenshtein_checked32 a b = some (damerau_levenshtein_true a b) ∧
      mul32 (add32 (wrap32 (a.length : Int)) 2) (add32 (wrap32 (b.length : Int)) 2) =
        (((a.length + 2) * (b.length + 2) : Nat) : Int) ∧
      (∀ p, p ∈ initAccesses a.length b.length ++ [(a.length + 1, b.length + 1)] →
        p.1 ≤ a.length + 1 ∧ p.2 ≤ b.length + 1) ∧
      (∀ i j : Nat, 1 ≤ i → i ≤ a.length → 1 ≤ j → j ≤ b.length →
        ∀ p, p ∈ iterAccesses a b i j → p.1 ≤ a.length + 1 ∧ p.2 ≤ b.length + 1) ∧
      (∀ r c : Nat, r ≤ a.length + 1 → c ≤ b.length + 1 →
        flat32 (wrap32 (b.length : Int)) (r : Int) (c : Int) =
            ((r * (b.length + 2) + c : Nat) : Int) ∧
          r * (b.length + 2) + c < (a.length + 2) * (b.length + 2)) ∧
      (∀ i j : Nat, 1 ≤ i → i ≤ a.length → 1 ≤ j → j ≤ b.length →
        i1At a b i j < i ∧ j1At a b i j < j) ∧
      (∀ c : Byte, c.val < (finalState a b).2.length) := by
  obtain ⟨hn, hm⟩ := narrow_eq a b hsize
  refine ⟨checked32_eq a b hsize, by rw [hn, hm]; exact size32_eq _ _ hsize, ?_,
    fun i j hi hin hj hjm => iterAccesses_in_grid a b i j hi hin hj hjm, ?_, ?_, ?_⟩
  · intro p hp
    rcases List.mem_append.mp hp with h | h
    · exact initAccesses_in_grid _ _ p h
    · rw [List.mem_singleton] at h
      rw [h]
      exact ⟨le_refl _, le_refl _⟩
  · intro r c hr hc
    rw [hm]
    exact ⟨flat32_eq a.length b.length r c hsize hr hc, idx_lt _ _ r c hr hc⟩
  · intro i j hi hin hj hjm
    have hr := iter_reads a b i j hi hin hj hjm
    exact ⟨hr.2.2.2.1, hr.2.2.2.2.1⟩
  · intro c
    have h := (rowState_ok a b (a.length + 1) (by omega) (le_refl _)).2.1
    rw [rowState_final] at h
    rw [h]
    exact c.isLt

set_option maxRecDepth 100000 in
/-- C13 amended, at `a = "ca"`, `b = "abc"`. -/
theorem index_safety_bounded_witness :
    ((bytes "ca").length + 2) * ((bytes "abc").length + 2) ≤ 2147483647 ∧
      damerau_levenshtein_checked32 (bytes "ca") (bytes "abc") =
        some (damerau_levenshtein_true (bytes "ca") (bytes "abc")) :=
  ⟨by decide, (index_safety_bounded (bytes "ca") (bytes "abc") (by decide)).1⟩

set_option maxRecDepth 100000 in
/-- C15, as stated, fails: for `a` of 2^32 bytes and `b` empty the sizes are
narrowed to 0 and 0 and the table has 4 cells; with `i = 1`, `j = 0` there is
no cell `at(2, 1)` (flat index 5), while the call on the prefixes `a[0..1)` and
`b[0..0)` returns 1. -/
theorem prefix_cell_oversize :
    1 ≤ (List.replicate 4294967296 (0 : Byte)).length ∧
      cellAtReturnC32 (List.replicate 4294967296 0) [] ((1 + 1 : Nat) : Int) ((0 + 1 : Nat) : Int) =
        none ∧
      damerau_levenshtein_checked32 ((List.replicate 4294967296 (0 : Byte)).take 1)
        (([] : List Byte).take 0) = some 1 := by
  refine ⟨?_, ?_, ?_⟩
  · rw [List.length_replicate]
    decide
  · unfold cellAtReturnC32 finalStateC32
    simp only [List.length_replicate, List.length_nil]
    decide
  · have e : (List.replicate 4294967296 (0 : Byte)).take 1 = [0] := by
      rw [List.take_replicate]
      rfl
    rw [e]
    decide

/-- C15, amended: when the table fits a 32-bit index,
`(n + 2) * (m + 2) ≤ 2^31 - 1`, on return the cell `at(i + 1, j + 1)` of the
program as compiled, for `i ≤ n` and `j ≤ m`, holds the number that a separate
call on the prefixes `a[0..i)` and `b[0..j)` returns. -/
theorem prefix_cell_bounded (a b : List Byte)
    (hsize : (a.length + 2) * (b.length + 2) ≤ 2147483647)
    (i j : Nat) (hi : i ≤ a.length) (hj : j ≤ b.length) :
    ∃ v : Int, cellAtReturnC32 a b ((i + 1 : Nat) : Int) ((j + 1 : Nat) : Int) = some v ∧
      damerau_levenshtein_checked32 (a.take i) (b.take j) = some v := by
  have hp : ((a.take i).length + 2) * ((b.take j).length + 2) ≤ 2147483647 := by
    rw [List.length_take, List.length_take, min_eq_left hi, min_eq_left hj]
    exact le_trans (Nat.mul_le_mul (Nat.add_le_add_right hi 2) (Nat.add_le_add_right hj 2)) hsize
  refine ⟨_, cellAtReturnC32_eq a b hsize (i + 1) (j + 1) (Nat.add_le_add_right hi 1)
    (Nat.add_le_add_right hj 1), ?_⟩
  rw [checked32_eq _ _ hp, cell_eq_call_on_prefixes a b i j hi hj]

set_option maxRecDepth 100000 in
/-- C15 amended, at `a = "kitten"`, `b = "sitting"`, prefixes of lengths 3 and 4. -/
theorem prefix_cell_bounded_witness :
    ((bytes "kitten").length + 2) * ((bytes "sitting").length + 2) ≤ 2147483647 ∧
      3 ≤ (bytes "kitten").length ∧ 4 ≤ (bytes "sitting").length ∧
      ∃ v : Int, cellAtReturnC32 (bytes "kitten") (bytes "sitting") ((3 + 1 : Nat) : Int)
          ((4 + 1 : Nat) : Int) = some v ∧
        damerau_levenshtein_checked32 ((bytes "kitten").take 3) ((bytes "sitting").take 4) =
          some v :=
  ⟨by decide, by decide, by decide,
    prefix_cell_bounded (bytes "kitten") (bytes "sitting") (by decide) 3 4 (by decide) (by decide)⟩

/-- C16, as stated, fails: 46339 bytes `'a'` and 46339 bytes `'b'` share no
symbol, the size `46341 * 46341` of the vector wraps to a negative `int`, the
allocation fails, and the program returns no number. -/
theorem disjoint_oversize :
    (∀ x, x ∈ List.replicate 46339 (97 : Byte) → x ∉ List.replicate 46339 (98 : Byte)) ∧
      damerau_levenshtein_checked32 (List.replicate 46339 97) (List.replicate 46339 98) = none ∧
      damerau_levenshtein_checked32 (List.replicate 46339 97) (List.replicate 46339 98) ≠
        some ((max (List.replicate 46339 (97 : Byte)).length
          (List.replicate 46339 (98 : Byte)).length : Nat) : Int) := by
  refine ⟨?_, checked32_46339 97 98, ?_⟩
  · intro x hx hx1
    rw [List.eq_of_mem_replicate hx] at hx1
    exact absurd (List.eq_of_mem_replicate hx1) (by decide)
  · rw [checked32_46339 97 98]
    exact fun h => Option.noConfusion h

/-- C16, amended: when the table fits a 32-bit index,
`(n + 2) * (m + 2) ≤ 2^31 - 1`, and no symbol occurs in both sequences, the
program as compiled returns `max(n, m)`. -/
theorem disjoint_bounded (a b : List Byte) (hd : ∀ x, x ∈ a → x ∉ b)
    (hsize : (a.length + 2) * (b.length + 2) ≤ 2147483647) :
    damerau_levenshtein_checked32 a b = some ((max a.length b.length : Nat) : Int) := by
  rw [checked32_eq a b hsize, dl_disjoint a b hd]

set_option maxRecDepth 1000000 in
/-- C16 amended, at `a = "ab"`, `b = "cde"`. -/
theorem disjoint_bounded_witness :
    (∀ x, x ∈ bytes "ab" → x ∉ bytes "cde") ∧
      ((bytes "ab").length + 2) * ((bytes "cde").length + 2) ≤ 2147483647 ∧
      damerau_levenshtein_checked32 (bytes "ab") (bytes "cde") =
        some ((max (bytes "ab").length (bytes "cde").length : Nat) : Int) :=
  ⟨by decide, by decide, disjoint_bounded (bytes "ab") (bytes "cde") (by decide) (by decide)⟩

/-- C17, as stated, fails: for `a = c = ""` and `b` of 2^32 - 1 bytes the size
of `b` is narrowed to -1, the call on `(a, b)` works on a 2-cell vector and
writes `at(1, 1)` at index 2, so the right-hand side of the inequality has no
value; run without the checks, the two calls through `b` return -1 each, and
`0 ≤ -1 + -1` is false. -/
theorem triangle_oversize :
    damerau_levenshtein_checked32 [] (List.replicate 4294967295 0) = none ∧
      (¬ ∃ x y z : Int, damerau_levenshtein_checked32 [] [] = some x ∧
        damerau_levenshtein_checked32 [] (List.replicate 4294967295 0) = some y ∧
        damerau_levenshtein_checked32 (List.replicate 4294967295 0) [] = some z ∧
        x ≤ y + z) ∧
      ¬ (damerau_levenshtein_true32 [] [] ≤
        damerau_levenshtein_true32 [] (List.replicate 4294967295 0) +
          damerau_levenshtein_true32 (List.replicate 4294967295 0) []) := by
  refine ⟨checked32_nil_pow32m1, ?_, ?_⟩
  · rintro ⟨x, y, z, _, hy, _, _⟩
    rw [checked32_nil_pow32m1] at hy
    cases hy
  · have h1 : damerau_levenshtein_true32 [] (List.replicate 4294967295 0) = -1 := by
      unfold damerau_levenshtein_true32
      simp only [List.length_replicate, List.length_nil]
      decide
    have h2 : damerau_levenshtein_true32 (List.replicate 4294967295 0) [] = -1 := by
      unfold damerau_levenshtein_true32
      simp only [List.length_replicate, List.length_nil]
      decide
    rw [h1, h2]
    decide

/-- C17, amended: when the three tables fit a 32-bit index,
`(|a| + 2) * (|b| + 2)`, `(|b| + 2) * (|c| + 2)` and `(|a| + 2) * (|c| + 2)`
all at most `2^31 - 1`, the program as compiled returns three numbers with
`d(a, c) ≤ d(a, b) + d(b, c)`. -/
theorem triangle_bounded (a b c : List Byte)
    (hab : (a.length + 2) * (b.length + 2) ≤ 2147483647)
    (hbc : (b.length + 2) * (c.length + 2) ≤ 2147483647)
    (hac : (a.length + 2) * (c.length + 2) ≤ 2147483647) :
    ∃ x y z : Int, damerau_levenshtein_checked32 a c = some x ∧
      damerau_levenshtein_checked32 a b = some y ∧
      damerau_levenshtein_checked32 b c = some z ∧ x ≤ y + z :=
  ⟨_, _, _, checked32_eq a c hac, checked32_eq a b hab, checked32_eq b c hbc, dl_triangle a b c⟩

set_option maxRecDepth 100000 in
/-- C17 amended, at `a = "ca"`, `b = "ac"`, `c = "abc"`. -/
theorem triangle_bounded_witness :
    ((bytes "ca").length + 2) * ((bytes "ac").length + 2) ≤ 2147483647 ∧
      ((bytes "ac").length + 2) * ((bytes "abc").length + 2) ≤ 2147483647 ∧
      ((bytes "ca").length + 2) * ((bytes "abc").length + 2) ≤ 2147483647 ∧
      ∃ x y z : Int, damerau_levenshtein_checked32 (bytes "ca") (bytes "abc") = some x ∧
        damerau_levenshtein_checked32 (bytes "ca") (bytes "ac") = some y ∧
        damerau_levenshtein_checked32 (bytes "ac") (bytes "abc") = some z ∧ x ≤ y + z :=
  ⟨by decide, by decide, by decide,
    triangle_bounded (bytes "ca") (bytes "ac") (bytes "abc") (by decide) (by decide) (by decide)⟩

end DLBaseline
